import Mathlib

set_option maxHeartbeats 1000000

/-
Shallow embedding of erts/emulator/beam/export.c — the function-dispatch
registry (export table) of the BEAM virtual machine.

The file models the data of export.c directly: a `Blob` is `struct
export_blob` (one `Export` dispatch record plus `ERTS_NUM_CODE_IX` slot
entries), a `State` holds the heap of blobs, the per-generation index tables
(`export_tables`) and the `total_entries_bytes` counter.  Pointers into the
blob heap are modelled as indices (`EntryRef` = blob index + entry index),
so pointer identity of `Export*` values is blob-index identity.

The generic hashed index table (index.c / hash.c), the code-index manager,
the opcode table and the trampoline helpers of export.h are collaborators
whose sources are not part of this tree; their definitions below are
modelled from the specification's interface contracts and are marked
`Modelled from the spec:` in their doc comments.
-/

namespace ExportTab

/-- Modelled from the spec: the number of code generations
(`ERTS_NUM_CODE_IX`, owned by the external code-index manager): a small
fixed constant; the value 3 is the one the collaborating manager uses. -/
def ERTS_NUM_CODE_IX : Nat := 3

/-- Byte size of one `struct export_blob` (`sizeof(*blob)`); its concrete
value is target-dependent, and every accounting statement below uses it
symbolically only. -/
def sizeof_export_blob : Int := 1

/-- Modelled from the spec: opcode of the default error/unresolved handler
(`op_call_error_handler`), owned by the external opcode table.  Only its
distinctness from the breakpoint opcode and from the zero-initialized
value matters. -/
def op_call_error_handler : Nat := 1

/-- Modelled from the spec: opcode of an installed breakpoint
(`op_i_generic_breakpoint`), distinct from the error-handler opcode. -/
def op_i_generic_breakpoint : Nat := 2

/-- A function identifier: `ErtsCodeMFA` restricted to the three key fields
(module atom, function atom, arity).  Atom values (`atom_val`) are the
symbol identifiers themselves here. -/
structure MFA where
  module : Nat
  function : Nat
  arity : Nat
deriving DecidableEq, Repr

instance : Inhabited MFA := ⟨⟨0, 0, 0⟩⟩

/-- A machine address as the dispatch slots see it: either the address of
the trampoline embedded in blob `b` (each blob's trampoline has its own
distinct address), or the address of real code. -/
inductive Addr where
  | tramp (b : Nat)
  | code (p : Nat)
deriving DecidableEq, Repr

/-- The `Export` dispatch record: identifier, builtin marker, trace flag,
the trampoline's operation word (`trampoline.common.op`) and one dispatch
address per code generation (`dispatch.addresses`). -/
structure Export where
  mfa : MFA
  bif_number : Int
  is_bif_traced : Bool
  trampoline_op : Nat
  addresses : List Addr
deriving DecidableEq, Repr

/-- One `struct export_blob`: the co-located `Export` record and the slot
indices of its `ERTS_NUM_CODE_IX` entries (`entryv[i].slot.index`; `-1`
means unassigned).  Each `entryv[i].ep` points at the blob's own `exp`
by construction, so it needs no separate field here. -/
structure Blob where
  exp : Export
  entryv : List Int
deriving DecidableEq, Repr

/-- A pointer to `struct export_entry`: blob index in the heap plus the
entry's position inside that blob's `entryv`.  `entry_to_blob` is the
projection `.blob`. -/
structure EntryRef where
  blob : Nat
  idx : Nat
deriving DecidableEq, Repr

/-- The template argument passed to `index_put_entry`: either a stack
template built by `init_template` (slot index `-1`, only the MFA of its
`Export` is ever read), or a live entry from another generation's table
(the non-template case of `export_alloc`). -/
inductive Tmpl where
  | key (mfa : MFA)
  | entry (r : EntryRef)
deriving DecidableEq, Repr

/-- The registry state: the blob heap (`none` = freed), the per-generation
tables `export_tables[i]` in stable insertion order, and the
`total_entries_bytes` counter. -/
structure State where
  blobs : List (Option Blob)
  tables : List (List EntryRef)
  total_entries_bytes : Int
deriving DecidableEq, Repr

/-- Update the element at position `i` (no-op when out of range). -/
def updAt (i : Nat) (f : α → α) : List α → List α
  | [] => []
  | x :: xs =>
    match i with
    | 0 => f x :: xs
    | n + 1 => x :: updAt n f xs

/-- Dereference a blob pointer. -/
def getBlob (st : State) (b : Nat) : Option Blob :=
  st.blobs.getD b none

/-- The table of generation `i` (`export_tables[i]`). -/
def tbl (st : State) (i : Nat) : List EntryRef :=
  st.tables.getD i []

/-- The identifier stored in blob `b`, when the blob is live. -/
def blobMFA? (st : State) (b : Nat) : Option MFA :=
  (getBlob st b).map (fun bl => bl.exp.mfa)

/-- The identifier an entry's record carries (`ee->ep->info.mfa`). -/
def keyOf? (st : State) (r : EntryRef) : Option MFA :=
  blobMFA? st r.blob

/-- The generation-`ix` dispatch address of blob `b`, when live. -/
def addrAt? (st : State) (b ix : Nat) : Option Addr :=
  (getBlob st b).map (fun bl => bl.exp.addresses.getD ix (Addr.code 0))

/-- Total variant of `addrAt?` (the value read by the dispatch consumer). -/
def addrAt (st : State) (b ix : Nat) : Addr :=
  (addrAt? st b ix).getD (Addr.code 0)

/-- Apply `f` to blob `b` in place (no-op on a freed or absent blob). -/
def updBlob (st : State) (b : Nat) (f : Blob → Blob) : State :=
  { st with blobs := updAt b (fun ob => ob.map f) st.blobs }

/-- Write dispatch address slot `ix` of blob `b`
(`disp->addresses[ix] = a`). -/
def setBlobAddr (st : State) (b ix : Nat) (a : Addr) : State :=
  updBlob st b (fun bl =>
    { bl with exp := { bl.exp with addresses := bl.exp.addresses.set ix a } })

/-- Write `entryv[j].slot.index = v` of blob `b`. -/
def setSlotIdx (st : State) (b j : Nat) (v : Int) : State :=
  updBlob st b (fun bl => { bl with entryv := bl.entryv.set j v })

/-- Append entry `r` at the end of generation `i`'s indexed sequence. -/
def pushTable (st : State) (i : Nat) (r : EntryRef) : State :=
  { st with tables := updAt i (fun t => t ++ [r]) st.tables }

/-- The hash macro `EXPORT_HASH(m,f,a) = (atom_val(m) * atom_val(f)) ^ a`. -/
def EXPORT_HASH (m f a : Nat) : Nat :=
  (m * f) ^^^ a

/-- `export_hash`: hash of an entry's record, via `EXPORT_HASH` on its MFA. -/
def export_hash (x : MFA) : Nat :=
  EXPORT_HASH x.module x.function x.arity

/-- `export_cmp`: zero (here `false`) exactly when template and object agree
on all three fields of the MFA. -/
def export_cmp (tmpl obj : MFA) : Bool :=
  !(tmpl.module == obj.module
      && tmpl.function == obj.function
      && tmpl.arity == obj.arity)

/-- Modelled from the spec: `hash_get`/`hash_fetch` of the external hashed
table collaborator — lookup-by-key resolving candidates with the supplied
equality `export_cmp`.  Hashing only selects a bucket; since `export_cmp`
matches nothing but the structurally equal key, the observable result is
the first entry of the generation's sequence whose record's MFA matches. -/
def hash_get (st : State) (i : Nat) (mfa : MFA) : Option EntryRef :=
  (tbl st i).find? (fun r =>
    match keyOf? st r with
    | some k => !(export_cmp mfa k)
    | none => false)

/-- The linear scan of `export_alloc`'s non-template branch:
`for (ix = 0; blob->entryv[ix].slot.index >= 0; ix++)`.  Returns the first
position holding a negative slot index; on a list whose entries are all
assigned it returns the list's length — the position one past the end that
the C loop would read out of bounds (its debug assertion is the only
guard). -/
def scanFree : List Int → Nat
  | [] => 0
  | v :: rest => if 0 ≤ v then scanFree rest + 1 else 0

/-- The freshly initialized blob the template branch of `export_alloc`
produces for identifier `mfa` at heap position `b`: identifier copied from
the template, not-yet-a-builtin marker, zeroed trampoline whose operation is
set to the error handler when the opcode table is initialized
(`BeamOpsAreInitialized`), every generation's dispatch address activated to
the trampoline's own address (`erts_activate_export_trampoline`, modelled
from the spec as writing the blob's trampoline address), every slot
unassigned (and every slot entry pointing at this record, by the blob's
construction). -/
def newBlob (b : Nat) (beamOpsInitialized : Bool) (mfa : MFA) : Blob :=
  { exp :=
      { mfa := mfa
        bif_number := -1
        is_bif_traced := false
        trampoline_op := if beamOpsInitialized then op_call_error_handler else 0
        addresses := List.replicate ERTS_NUM_CODE_IX (Addr.tramp b) }
    entryv := List.replicate ERTS_NUM_CODE_IX (-1) }

/-- `export_alloc`: the allocate-on-miss hook.  A template (`Tmpl.key`)
allocates a fresh blob (`newBlob`) and charges `total_entries_bytes`; a
live entry (`Tmpl.entry`) reuses its blob and returns the entry at the
scan's position. -/
def export_alloc (st : State) (beamOpsInitialized : Bool) (tmpl : Tmpl) :
    State × EntryRef :=
  match tmpl with
  | .key mfa =>
    let b := st.blobs.length
    ({ st with
        blobs := st.blobs ++ [some (newBlob b beamOpsInitialized mfa)]
        total_entries_bytes := st.total_entries_bytes + sizeof_export_blob },
      { blob := b, idx := 0 })
  | .entry r =>
    let ev :=
      match getBlob st r.blob with
      | some bl => bl.entryv
      | none => []
    (st, { blob := r.blob, idx := scanFree ev })

/-- `export_free`: the free-on-removal hook.  Mark the removed entry's slot
unassigned; if any sibling slot of the blob is still assigned the blob
survives; otherwise the blob is deallocated and `total_entries_bytes` is
decremented by the blob size. -/
def export_free (st : State) (r : EntryRef) : State :=
  let st1 := setSlotIdx st r.blob r.idx (-1)
  match getBlob st1 r.blob with
  | none => st1
  | some bl =>
    if bl.entryv.any (fun v => decide (0 ≤ v)) then st1
    else
      { st1 with
          blobs := st1.blobs.set r.blob none
          total_entries_bytes := st1.total_entries_bytes - sizeof_export_blob }

/-- The key the template argument carries (`tmpl_e->ep->info.mfa`). -/
def tmplMFA (st : State) : Tmpl → MFA
  | .key mfa => mfa
  | .entry r => (keyOf? st r).getD default

/-- Modelled from the spec: `index_put_entry` of the external indexed table
collaborator — upsert-or-get.  Look the template's key up; on a hit return
the existing entry; on a miss invoke the allocate hook (`export_alloc`),
stamp the produced entry's slot index with the table's running entry count
(the table keeps stable insertion order) and append it to the indexed
sequence. -/
def index_put_entry (st : State) (bi : Bool) (i : Nat) (tmpl : Tmpl) :
    State × EntryRef :=
  match hash_get st i (tmplMFA st tmpl) with
  | some r => (st, r)
  | none =>
    let p := export_alloc st bi tmpl
    let st2 := setSlotIdx p.1 p.2.blob p.2.idx (Int.ofNat (tbl p.1 i).length)
    (pushTable st2 i p.2, p.2)

/-- `erts_find_export_entry`: exact lookup of (m,f,a) in generation
`code_ix`'s table, returning the record (its blob index) or none. -/
def erts_find_export_entry (st : State) (code_ix m f a : Nat) : Option Nat :=
  (hash_get st code_ix { module := m, function := f, arity := a }).map
    (fun r => r.blob)

/-- Modelled from the spec: `erts_is_export_trampoline_active` of export.h —
whether the record's generation-`ix` dispatch address equals the record's
own trampoline address. -/
def erts_is_export_trampoline_active (st : State) (b ix : Nat) : Bool :=
  addrAt st b ix == Addr.tramp b

/-- The trampoline operation word of blob `b` (`ep->trampoline.common.op`);
zero when the blob is not live. -/
def trampolineOp (st : State) (b : Nat) : Nat :=
  match getBlob st b with
  | some bl => bl.exp.trampoline_op
  | none => 0

/-- `erts_find_function`: lookup that filters out unresolved stubs — none
when the identifier is absent, or when its generation dispatch address is
the trampoline while the trampoline is not in installed-breakpoint shape
(`BeamIsOpCode(.., op_i_generic_breakpoint)`). -/
def erts_find_function (st : State) (code_ix m f a : Nat) : Option Nat :=
  match hash_get st code_ix { module := m, function := f, arity := a } with
  | none => none
  | some r =>
    if erts_is_export_trampoline_active st r.blob code_ix
        && !(trampolineOp st r.blob == op_i_generic_breakpoint)
    then none
    else some r.blob

/-- `erts_export_put`: upsert (m,f,a) into the staging generation's table
under the staging lock and return its entry.  (The build modelled here is
the non-JIT one: the BEAMASM-only write of the save-calls dispatch slot is
compiled out.) -/
def erts_export_put (st : State) (bi : Bool) (staging_ix m f a : Nat) :
    State × EntryRef :=
  index_put_entry st bi staging_ix
    (Tmpl.key { module := m, function := f, arity := a })

/-- One iteration of `erts_export_get_or_make_stub`'s loop: `a1` is the
active code index read before the lookup, `a2` the active code index
re-read under the staging lock, `s` the staging code index.  `none` means
the iteration detected the commit race (`a2 ≠ a1`) and the loop retries. -/
def stub_iter (st : State) (bi : Bool) (mfa : MFA) (a1 a2 s : Nat) :
    Option (State × Nat) :=
  match hash_get st a1 mfa with
  | some r => some (st, r.blob)
  | none =>
    if a2 = a1 then
      let p := index_put_entry st bi s (Tmpl.key mfa)
      some (p.1, p.2.blob)
    else none

/-- `erts_export_get_or_make_stub`: the retry loop, driven by the sequence
of (active-at-read, active-at-lock, staging) index observations the
external code-index manager serves to the successive iterations.  (As with
`erts_export_put`, the BEAMASM-only save-calls slot write is compiled
out.) -/
def erts_export_get_or_make_stub (bi : Bool) (mfa : MFA) :
    State → List (Nat × Nat × Nat) → Option (State × Nat)
  | _, [] => none
  | st, (a1, a2, s) :: rest =>
    match stub_iter st bi mfa a1 a2 s with
    | some res => some res
    | none => erts_export_get_or_make_stub bi mfa st rest

/-- One iteration of `export_start_staging`'s loop over the active table:
copy the source generation's dispatch address into the destination
generation's slot of the entry's record, then upsert the entry into the
destination table. -/
def migrate_entry (bi : Bool) (dst src : Nat) (st : State) (r : EntryRef) :
    State :=
  let st1 := setBlobAddr st r.blob dst (addrAt st r.blob src)
  (index_put_entry st1 bi dst (Tmpl.entry r)).1

/-- `export_start_staging`: under the staging lock, migrate every entry of
the active (`src`) generation's table, in stable index order, into the
staging (`dst`) generation's table. -/
def export_start_staging (st : State) (bi : Bool) (dst src : Nat) : State :=
  (tbl st src).foldl (migrate_entry bi dst src) st

/-- `export_get`: look the given record's own MFA up in the active
generation's table and return the stored record, or none when absent. -/
def export_get (st : State) (active_ix b : Nat) : Option Nat :=
  (hash_get st active_ix ((blobMFA? st b).getD default)).map (fun r => r.blob)

/-- `export_entries_sz`: the `total_entries_bytes` counter. -/
def export_entries_sz (st : State) : Int :=
  st.total_entries_bytes

/-- Modelled from the spec: the loader's direct patch of one generation's
dispatch address ("written only during migration/commit or direct patch
operations"), installing real code for that generation. -/
def patch (st : State) (b ix : Nat) (a : Addr) : State :=
  setBlobAddr st b ix a

/-- A table entry is valid when its blob is live and carries full-length
slot and address vectors. -/
def validRef (st : State) (r : EntryRef) : Bool :=
  match getBlob st r.blob with
  | none => false
  | some bl =>
    bl.entryv.length == ERTS_NUM_CODE_IX
      && bl.exp.addresses.length == ERTS_NUM_CODE_IX

/-- Blob uniqueness: any two table entries whose records carry the same
identifier point into the same blob. -/
def Uniq (st : State) : Prop :=
  ∀ t1 ∈ st.tables, ∀ t2 ∈ st.tables, ∀ r1 ∈ t1, ∀ r2 ∈ t2,
    (keyOf? st r1).isSome = true → keyOf? st r1 = keyOf? st r2 →
      r1.blob = r2.blob

instance (st : State) : Decidable (Uniq st) := by
  unfold Uniq
  infer_instance

/-- A small concrete state used by the witness theorems: one blob holding
identifier (1,2,0) as an unpatched stub, assigned in generation 0's table
only. -/
def sampleBlob : Blob :=
  { exp :=
      { mfa := { module := 1, function := 2, arity := 0 }
        bif_number := -1
        is_bif_traced := false
        trampoline_op := op_call_error_handler
        addresses := [Addr.tramp 0, Addr.tramp 0, Addr.tramp 0] }
    entryv := [0, -1, -1] }

def sampleState : State :=
  { blobs := [some sampleBlob]
    tables := [[{ blob := 0, idx := 0 }], [], []]
    total_entries_bytes := sizeof_export_blob }

theorem updAt_nil (i : Nat) (f : α → α) : updAt i f [] = [] := by
  simp only [updAt]

theorem updAt_cons_zero (f : α → α) (x : α) (xs : List α) :
    updAt 0 f (x :: xs) = f x :: xs := by
  simp only [updAt]

theorem updAt_cons_succ (n : Nat) (f : α → α) (x : α) (xs : List α) :
    updAt (n + 1) f (x :: xs) = x :: updAt n f xs := by
  simp only [updAt]

theorem length_updAt (i : Nat) (f : α → α) :
    ∀ l : List α, (updAt i f l).length = l.length := by
  intro l
  induction l generalizing i with
  | nil => rw [updAt_nil]
  | cons x xs ih =>
    cases i with
    | zero => rw [updAt_cons_zero, List.length_cons, List.length_cons]
    | succ n => rw [updAt_cons_succ, List.length_cons, List.length_cons, ih]

theorem updAt_eq_of_le {f : α → α} :
    ∀ {l : List α} {i : Nat}, l.length ≤ i → updAt i f l = l := by
  intro l
  induction l with
  | nil => intro i _; rw [updAt_nil]
  | cons x xs ih =>
    intro i h
    cases i with
    | zero => simp at h
    | succ n =>
      simp only [List.length_cons, Nat.succ_le_succ_iff] at h
      rw [updAt_cons_succ, ih h]

theorem getD_updAt_self {f : α → α} {d : α} :
    ∀ {l : List α} {i : Nat}, i < l.length →
      (updAt i f l).getD i d = f (l.getD i d) := by
  intro l
  induction l with
  | nil => intro i h; simp at h
  | cons x xs ih =>
    intro i h
    cases i with
    | zero => rw [updAt_cons_zero, List.getD_cons_zero, List.getD_cons_zero]
    | succ n =>
      simp only [List.length_cons, Nat.succ_lt_succ_iff] at h
      rw [updAt_cons_succ, List.getD_cons_succ, List.getD_cons_succ, ih h]

theorem getD_updAt_ne {f : α → α} {d : α} :
    ∀ {l : List α} {i j : Nat}, j ≠ i →
      (updAt i f l).getD j d = l.getD j d := by
  intro l
  induction l with
  | nil => intro i j _; rw [updAt_nil]
  | cons x xs ih =>
    intro i j h
    cases i with
    | zero =>
      cases j with
      | zero => exact absurd rfl h
      | succ m => rw [updAt_cons_zero, List.getD_cons_succ, List.getD_cons_succ]
    | succ n =>
      cases j with
      | zero => rw [updAt_cons_succ, List.getD_cons_zero, List.getD_cons_zero]
      | succ m =>
        rw [updAt_cons_succ, List.getD_cons_succ, List.getD_cons_succ]
        exact ih (fun hc => h (by rw [hc]))

theorem mem_updAt {f : α → α} {x : α} :
    ∀ {l : List α} {i : Nat}, x ∈ updAt i f l → x ∈ l ∨ ∃ y ∈ l, x = f y := by
  intro l
  induction l with
  | nil => intro i h; rw [updAt_nil] at h; exact Or.inl h
  | cons z xs ih =>
    intro i h
    cases i with
    | zero =>
      rw [updAt_cons_zero, List.mem_cons] at h
      rcases h with h | h
      · exact Or.inr ⟨z, by simp, h⟩
      · exact Or.inl (List.mem_cons_of_mem _ h)
    | succ n =>
      rw [updAt_cons_succ, List.mem_cons] at h
      rcases h with h | h
      · exact Or.inl (h ▸ List.mem_cons_self _ _)
      · rcases ih h with h2 | ⟨y, hy, hxy⟩
        · exact Or.inl (List.mem_cons_of_mem _ h2)
        · exact Or.inr ⟨y, List.mem_cons_of_mem _ hy, hxy⟩

theorem getD_eq_default_of_le {d : α} :
    ∀ {l : List α} {i : Nat}, l.length ≤ i → l.getD i d = d := by
  intro l
  induction l with
  | nil => intro i _; rw [List.getD_nil]
  | cons x xs ih =>
    intro i h
    cases i with
    | zero => simp at h
    | succ n =>
      simp only [List.length_cons, Nat.succ_le_succ_iff] at h
      rw [List.getD_cons_succ, ih h]

theorem getD_append_lt {d : α} :
    ∀ {l l2 : List α} {i : Nat}, i < l.length →
      (l ++ l2).getD i d = l.getD i d := by
  intro l
  induction l with
  | nil => intro l2 i h; simp at h
  | cons x xs ih =>
    intro l2 i h
    cases i with
    | zero => rw [List.cons_append, List.getD_cons_zero, List.getD_cons_zero]
    | succ n =>
      simp only [List.length_cons, Nat.succ_lt_succ_iff] at h
      rw [List.cons_append, List.getD_cons_succ, List.getD_cons_succ, ih h]

theorem getD_append_self {d : α} :
    ∀ (l : List α) (x : α), (l ++ [x]).getD l.length d = x := by
  intro l
  induction l with
  | nil => intro x; rw [List.nil_append, List.length_nil, List.getD_cons_zero]
  | cons z xs ih =>
    intro x
    rw [List.cons_append, List.length_cons, List.getD_cons_succ, ih x]

theorem getD_set_self {v d : α} :
    ∀ {l : List α} {i : Nat}, i < l.length → (l.set i v).getD i d = v := by
  intro l
  induction l with
  | nil => intro i h; simp at h
  | cons x xs ih =>
    intro i h
    cases i with
    | zero => rw [List.set_cons_zero, List.getD_cons_zero]
    | succ n =>
      simp only [List.length_cons, Nat.succ_lt_succ_iff] at h
      rw [List.set_cons_succ, List.getD_cons_succ, ih h]

theorem getD_set_ne {v d : α} :
    ∀ {l : List α} {i j : Nat}, j ≠ i → (l.set i v).getD j d = l.getD j d := by
  intro l
  induction l with
  | nil => intro i j _; rw [List.set_nil]
  | cons x xs ih =>
    intro i j h
    cases i with
    | zero =>
      cases j with
      | zero => exact absurd rfl h
      | succ m => rw [List.set_cons_zero, List.getD_cons_succ, List.getD_cons_succ]
    | succ n =>
      cases j with
      | zero => rw [List.set_cons_succ, List.getD_cons_zero, List.getD_cons_zero]
      | succ m =>
        rw [List.set_cons_succ, List.getD_cons_succ, List.getD_cons_succ]
        exact ih (fun hc => h (by rw [hc]))

theorem getD_mem_or (l : List α) (i : Nat) (d : α) :
    l.getD i d = d ∨ l.getD i d ∈ l := by
  induction l generalizing i with
  | nil => exact Or.inl (by rw [List.getD_nil])
  | cons x xs ih =>
    cases i with
    | zero => exact Or.inr (by rw [List.getD_cons_zero]; simp)
    | succ n =>
      rcases ih n with h | h
      · exact Or.inl (by rw [List.getD_cons_succ]; exact h)
      · refine Or.inr ?_
        rw [List.getD_cons_succ]
        exact List.mem_cons_of_mem _ h

theorem getD_replicate {a d : α} :
    ∀ {n i : Nat}, i < n → (List.replicate n a).getD i d = a := by
  intro n
  induction n with
  | zero => intro i h; simp at h
  | succ m ih =>
    intro i h
    cases i with
    | zero => rw [List.replicate_succ, List.getD_cons_zero]
    | succ k =>
      simp only [Nat.succ_lt_succ_iff] at h
      rw [List.replicate_succ, List.getD_cons_succ, ih h]

theorem find?_congr {p q : α → Bool} :
    ∀ {l : List α}, (∀ x ∈ l, p x = q x) → l.find? p = l.find? q := by
  intro l
  induction l with
  | nil => intro _; rfl
  | cons x xs ih =>
    intro h
    have hx := h x (by simp)
    by_cases hp : p x = true
    · rw [List.find?_cons_of_pos _ hp, List.find?_cons_of_pos _ (hx ▸ hp)]
    · have hq : ¬ q x = true := fun hc => hp (hx ▸ hc)
      rw [List.find?_cons_of_neg _ hp, List.find?_cons_of_neg _ hq]
      exact ih (fun y hy => h y (List.mem_cons_of_mem _ hy))

theorem find?_append_none {p : α → Bool} :
    ∀ {l1 l2 : List α}, l1.find? p = none →
      (l1 ++ l2).find? p = l2.find? p := by
  intro l1
  induction l1 with
  | nil => intro l2 _; rfl
  | cons x xs ih =>
    intro l2 h
    by_cases hp : p x = true
    · rw [List.find?_cons_of_pos _ hp] at h; exact absurd h (by simp)
    · rw [List.find?_cons_of_neg _ hp] at h
      simpa [List.find?_cons_of_neg _ hp] using ih h

theorem getBlob_updBlob_self (st : State) (b : Nat) (f : Blob → Blob) :
    getBlob (updBlob st b f) b = (getBlob st b).map f := by
  unfold getBlob updBlob
  by_cases hb : b < st.blobs.length
  · exact getD_updAt_self hb
  · rw [updAt_eq_of_le (Nat.le_of_not_lt hb)]
    rw [getD_eq_default_of_le (Nat.le_of_not_lt hb)]
    rfl

theorem getBlob_updBlob_ne (st : State) (b b' : Nat) (f : Blob → Blob)
    (hb : b' ≠ b) : getBlob (updBlob st b f) b' = getBlob st b' := by
  unfold getBlob updBlob
  exact getD_updAt_ne hb

theorem tbl_updBlob (st : State) (b : Nat) (f : Blob → Blob) (i : Nat) :
    tbl (updBlob st b f) i = tbl st i := rfl

theorem tables_updBlob (st : State) (b : Nat) (f : Blob → Blob) :
    (updBlob st b f).tables = st.tables := rfl

theorem blobs_length_updBlob (st : State) (b : Nat) (f : Blob → Blob) :
    (updBlob st b f).blobs.length = st.blobs.length := by
  unfold updBlob
  exact length_updAt b _ st.blobs

theorem blobs_pushTable (st : State) (i : Nat) (r : EntryRef) :
    (pushTable st i r).blobs = st.blobs := rfl

theorem getBlob_pushTable (st : State) (i : Nat) (r : EntryRef) (b : Nat) :
    getBlob (pushTable st i r) b = getBlob st b := rfl

theorem tables_length_pushTable (st : State) (i : Nat) (r : EntryRef) :
    (pushTable st i r).tables.length = st.tables.length := by
  unfold pushTable
  exact length_updAt i _ st.tables

theorem tbl_pushTable_ne (st : State) (i : Nat) (r : EntryRef) (j : Nat)
    (h : j ≠ i) : tbl (pushTable st i r) j = tbl st j := by
  unfold tbl pushTable
  exact getD_updAt_ne h

theorem tbl_pushTable_self (st : State) (i : Nat) (r : EntryRef)
    (h : i < st.tables.length) : tbl (pushTable st i r) i = tbl st i ++ [r] := by
  unfold tbl pushTable
  rw [getD_updAt_self h]

theorem tbl_pushTable_of_le (st : State) (i : Nat) (r : EntryRef)
    (h : st.tables.length ≤ i) : ∀ j, tbl (pushTable st i r) j = tbl st j := by
  intro j
  unfold tbl pushTable
  rw [updAt_eq_of_le h]

theorem blobMFA?_updBlob (st : State) (b b' : Nat) (f : Blob → Blob)
    (hf : ∀ bl, (f bl).exp.mfa = bl.exp.mfa) :
    blobMFA? (updBlob st b f) b' = blobMFA? st b' := by
  unfold blobMFA?
  by_cases hb : b' = b
  · subst hb
    rw [getBlob_updBlob_self]
    cases getBlob st b' with
    | none => rfl
    | some bl => simp [Option.map, hf]
  · rw [getBlob_updBlob_ne st b b' f hb]

theorem blobMFA?_setBlobAddr (st : State) (b ix : Nat) (a : Addr) (b' : Nat) :
    blobMFA? (setBlobAddr st b ix a) b' = blobMFA? st b' :=
  blobMFA?_updBlob st b b' _ (fun _ => rfl)

theorem blobMFA?_setSlotIdx (st : State) (b j : Nat) (v : Int) (b' : Nat) :
    blobMFA? (setSlotIdx st b j v) b' = blobMFA? st b' :=
  blobMFA?_updBlob st b b' _ (fun _ => rfl)

theorem blobMFA?_pushTable (st : State) (i : Nat) (r : EntryRef) (b : Nat) :
    blobMFA? (pushTable st i r) b = blobMFA? st b := rfl

theorem keyOf?_eq_blobMFA? (st : State) (r : EntryRef) :
    keyOf? st r = blobMFA? st r.blob := rfl

theorem export_cmp_eq_false_iff (x y : MFA) : export_cmp x y = false ↔ x = y := by
  cases x with
  | mk xm xf xa =>
    cases y with
    | mk ym yf ya =>
      simp [export_cmp, MFA.mk.injEq, and_assoc]

theorem hash_get_pred_iff (st : State) (mfa : MFA) (r : EntryRef) :
    (match keyOf? st r with
      | some k => !(export_cmp mfa k)
      | none => false) = true ↔ keyOf? st r = some mfa := by
  cases hk : keyOf? st r with
  | none => simp
  | some k =>
    simp only [Bool.not_eq_true', Option.some.injEq]
    rw [export_cmp_eq_false_iff]
    constructor
    · intro h; rw [h]
    · intro h; rw [h]

theorem hash_get_some {st : State} {i : Nat} {mfa : MFA} {r : EntryRef}
    (h : hash_get st i mfa = some r) :
    r ∈ tbl st i ∧ keyOf? st r = some mfa := by
  refine ⟨List.mem_of_find?_eq_some h, ?_⟩
  have := List.find?_some h
  exact (hash_get_pred_iff st mfa r).mp this

theorem hash_get_none {st : State} {i : Nat} {mfa : MFA}
    (h : hash_get st i mfa = none) :
    ∀ r ∈ tbl st i, keyOf? st r ≠ some mfa := by
  intro r hr hk
  have := List.find?_eq_none.mp h r hr
  exact this ((hash_get_pred_iff st mfa r).mpr hk)

theorem hash_get_isSome {st : State} {i : Nat} {mfa : MFA} {r : EntryRef}
    (hr : r ∈ tbl st i) (hk : keyOf? st r = some mfa) :
    ∃ r', hash_get st i mfa = some r' := by
  have : (hash_get st i mfa).isSome := by
    rw [hash_get, List.find?_isSome]
    exact ⟨r, hr, (hash_get_pred_iff st mfa r).mpr hk⟩
  cases hg : hash_get st i mfa with
  | none => rw [hg] at this; cases this
  | some r' => exact ⟨r', rfl⟩

theorem hash_get_congr {st st' : State} {i : Nat} {mfa : MFA}
    (h1 : tbl st' i = tbl st i)
    (h2 : ∀ r : EntryRef, keyOf? st' r = keyOf? st r) :
    hash_get st' i mfa = hash_get st i mfa := by
  unfold hash_get
  rw [h1]
  exact find?_congr (fun r _ => by rw [h2 r])

theorem tbl_mem_tables {st : State} {i : Nat} {r : EntryRef}
    (h : r ∈ tbl st i) : tbl st i ∈ st.tables := by
  rcases getD_mem_or st.tables i [] with h2 | h2
  · unfold tbl at h
    rw [h2] at h
    cases h
  · exact h2

theorem getD_mem_of_lt {d : α} :
    ∀ {l : List α} {i : Nat}, i < l.length → l.getD i d ∈ l := by
  intro l
  induction l with
  | nil => intro i h; simp at h
  | cons x xs ih =>
    intro i h
    cases i with
    | zero => rw [List.getD_cons_zero]; simp
    | succ n =>
      simp only [List.length_cons, Nat.succ_lt_succ_iff] at h
      rw [List.getD_cons_succ]
      exact List.mem_cons_of_mem _ (ih h)

theorem mem_index {d x : α} :
    ∀ {l : List α}, x ∈ l → ∃ i, i < l.length ∧ l.getD i d = x := by
  intro l
  induction l with
  | nil => intro h; cases h
  | cons z xs ih =>
    intro h
    rcases List.mem_cons.mp h with h | h
    · exact ⟨0, by simp, by rw [List.getD_cons_zero, h]⟩
    · rcases ih h with ⟨i, hi, hg⟩
      exact ⟨i + 1, by simpa using Nat.succ_lt_succ hi,
        by rw [List.getD_cons_succ]; exact hg⟩

theorem getBlob_some_lt {st : State} {b : Nat} {bl : Blob}
    (h : getBlob st b = some bl) : b < st.blobs.length := by
  by_contra hc
  unfold getBlob at h
  rw [getD_eq_default_of_le (Nat.le_of_not_lt hc)] at h
  cases h

theorem scanFree_le_length : ∀ l : List Int, scanFree l ≤ l.length := by
  intro l
  induction l with
  | nil => exact Nat.le_refl 0
  | cons v rest ih =>
    by_cases hv : (0 : Int) ≤ v
    · simp only [scanFree, if_pos hv, List.length_cons]
      exact Nat.succ_le_succ ih
    · simp only [scanFree, if_neg hv, List.length_cons]
      exact Nat.zero_le _

theorem scanFree_min :
    ∀ (l : List Int) (k : Nat), k < scanFree l → 0 ≤ l.getD k 0 := by
  intro l
  induction l with
  | nil => intro k h; simp [scanFree] at h
  | cons v rest ih =>
    intro k h
    by_cases hv : (0 : Int) ≤ v
    · simp only [scanFree, if_pos hv] at h
      cases k with
      | zero => rw [List.getD_cons_zero]; exact hv
      | succ m =>
        rw [List.getD_cons_succ]
        exact ih m (Nat.lt_of_succ_lt_succ h)
    · simp only [scanFree, if_neg hv] at h
      cases h

theorem scanFree_getD :
    ∀ l : List Int, scanFree l < l.length → l.getD (scanFree l) 0 < 0 := by
  intro l
  induction l with
  | nil => intro h; simp at h
  | cons v rest ih =>
    intro h
    by_cases hv : (0 : Int) ≤ v
    · simp only [scanFree, if_pos hv] at h ⊢
      rw [List.getD_cons_succ]
      exact ih (Nat.lt_of_succ_lt_succ (by simpa using h))
    · simp only [scanFree, if_neg hv]
      rw [List.getD_cons_zero]
      exact Int.not_le.mp hv

theorem scanFree_eq_length :
    ∀ l : List Int, (∀ i < l.length, 0 ≤ l.getD i 0) → scanFree l = l.length := by
  intro l
  induction l with
  | nil => intro _; rfl
  | cons v rest ih =>
    intro h
    have hv : (0 : Int) ≤ v := by
      have := h 0 (by simp)
      rwa [List.getD_cons_zero] at this
    simp only [scanFree, if_pos hv, List.length_cons]
    congr 1
    refine ih (fun i hi => ?_)
    have := h (i + 1) (by simpa using Nat.succ_lt_succ hi)
    rwa [List.getD_cons_succ] at this

theorem scanFree_lt_of_free :
    ∀ l : List Int, (∃ i, i < l.length ∧ l.getD i 0 < 0) →
      scanFree l < l.length := by
  intro l h
  rcases h with ⟨i, hi, hneg⟩
  rcases Nat.lt_or_ge (scanFree l) l.length with h2 | h2
  · exact h2
  · have heq : scanFree l = l.length :=
      Nat.le_antisymm (scanFree_le_length l) h2
    have : 0 ≤ l.getD i 0 := scanFree_min l i (heq ▸ hi)
    exact absurd hneg (Int.not_lt.mpr this)

theorem export_alloc_tables (st : State) (bi : Bool) (tm : Tmpl) :
    (export_alloc st bi tm).1.tables = st.tables := by
  cases tm <;> rfl

theorem export_alloc_entry_state (st : State) (bi : Bool) (r : EntryRef) :
    (export_alloc st bi (Tmpl.entry r)).1 = st := rfl

theorem export_alloc_entry_blob (st : State) (bi : Bool) (r : EntryRef) :
    (export_alloc st bi (Tmpl.entry r)).2.blob = r.blob := rfl

theorem export_alloc_key_ref (st : State) (bi : Bool) (mfa : MFA) :
    (export_alloc st bi (Tmpl.key mfa)).2
      = { blob := st.blobs.length, idx := 0 } := rfl

theorem export_alloc_key_blobs_length (st : State) (bi : Bool) (mfa : MFA) :
    (export_alloc st bi (Tmpl.key mfa)).1.blobs.length
      = st.blobs.length + 1 := by
  show (st.blobs ++ [some _]).length = st.blobs.length + 1
  rw [List.length_append, List.length_singleton]

theorem getBlob_alloc_key_new (st : State) (bi : Bool) (mfa : MFA) :
    getBlob (export_alloc st bi (Tmpl.key mfa)).1 st.blobs.length
      = some (newBlob st.blobs.length bi mfa) := by
  show (st.blobs ++ [some _]).getD st.blobs.length none = _
  rw [getD_append_self]

theorem getBlob_alloc_key_ne (st : State) (bi : Bool) (mfa : MFA) (b : Nat)
    (hb : b ≠ st.blobs.length) :
    getBlob (export_alloc st bi (Tmpl.key mfa)).1 b = getBlob st b := by
  rcases Nat.lt_or_ge b st.blobs.length with h | h
  · show (st.blobs ++ [some _]).getD b none = _
    rw [getD_append_lt h]
    rfl
  · have h2 : st.blobs.length < b := Nat.lt_of_le_of_ne h (Ne.symm hb)
    show (st.blobs ++ [some _]).getD b none = st.blobs.getD b none
    rw [getD_eq_default_of_le
        (by rw [List.length_append, List.length_singleton]; exact h2),
      getD_eq_default_of_le h]

theorem blobMFA?_alloc_key_new (st : State) (bi : Bool) (mfa : MFA) :
    blobMFA? (export_alloc st bi (Tmpl.key mfa)).1 st.blobs.length
      = some mfa := by
  unfold blobMFA?
  rw [getBlob_alloc_key_new]
  rfl

theorem blobMFA?_alloc_key_ne (st : State) (bi : Bool) (mfa : MFA) (b : Nat)
    (hb : b ≠ st.blobs.length) :
    blobMFA? (export_alloc st bi (Tmpl.key mfa)).1 b = blobMFA? st b := by
  unfold blobMFA?
  rw [getBlob_alloc_key_ne st bi mfa b hb]

theorem tbl_setSlotIdx (st : State) (b k : Nat) (v : Int) (j : Nat) :
    tbl (setSlotIdx st b k v) j = tbl st j := rfl

theorem tables_setSlotIdx (st : State) (b k : Nat) (v : Int) :
    (setSlotIdx st b k v).tables = st.tables := rfl

theorem tbl_alloc (st : State) (bi : Bool) (tm : Tmpl) (j : Nat) :
    tbl (export_alloc st bi tm).1 j = tbl st j := by
  unfold tbl
  rw [export_alloc_tables]

theorem tmplMFA_key (st : State) (mfa : MFA) :
    tmplMFA st (Tmpl.key mfa) = mfa := rfl

theorem index_put_entry_found {st : State} {bi : Bool} {i : Nat} {tm : Tmpl}
    {r : EntryRef} (h : hash_get st i (tmplMFA st tm) = some r) :
    index_put_entry st bi i tm = (st, r) := by
  unfold index_put_entry
  rw [h]

theorem index_put_entry_miss {st : State} {bi : Bool} {i : Nat} {tm : Tmpl}
    (h : hash_get st i (tmplMFA st tm) = none) :
    index_put_entry st bi i tm
      = (pushTable
          (setSlotIdx (export_alloc st bi tm).1 (export_alloc st bi tm).2.blob
            (export_alloc st bi tm).2.idx
            (Int.ofNat (tbl (export_alloc st bi tm).1 i).length))
          i (export_alloc st bi tm).2,
        (export_alloc st bi tm).2) := by
  unfold index_put_entry
  rw [h]

theorem tbl_index_put_ne (st : State) (bi : Bool) (i : Nat) (tm : Tmpl)
    (j : Nat) (hj : j ≠ i) :
    tbl (index_put_entry st bi i tm).1 j = tbl st j := by
  cases h : hash_get st i (tmplMFA st tm) with
  | some r => rw [index_put_entry_found h]
  | none =>
    rw [index_put_entry_miss h]
    dsimp only
    rw [tbl_pushTable_ne _ _ _ _ hj, tbl_setSlotIdx, tbl_alloc]

theorem tables_length_index_put (st : State) (bi : Bool) (i : Nat) (tm : Tmpl) :
    (index_put_entry st bi i tm).1.tables.length = st.tables.length := by
  cases h : hash_get st i (tmplMFA st tm) with
  | some r => rw [index_put_entry_found h]
  | none =>
    rw [index_put_entry_miss h]
    dsimp only
    rw [tables_length_pushTable]
    show (export_alloc st bi tm).1.tables.length = st.tables.length
    rw [export_alloc_tables]

theorem tbl_index_put_self (st : State) (bi : Bool) (i : Nat) (tm : Tmpl) :
    tbl (index_put_entry st bi i tm).1 i = tbl st i
    ∨ tbl (index_put_entry st bi i tm).1 i
        = tbl st i ++ [(index_put_entry st bi i tm).2] := by
  cases h : hash_get st i (tmplMFA st tm) with
  | some r => exact Or.inl (by rw [index_put_entry_found h])
  | none =>
    rw [index_put_entry_miss h]
    dsimp only
    rcases Nat.lt_or_ge i st.tables.length with hlt | hge
    · refine Or.inr ?_
      rw [tbl_pushTable_self _ _ _
          (by rw [tables_setSlotIdx, export_alloc_tables]; exact hlt),
        tbl_setSlotIdx, tbl_alloc]
    · refine Or.inl ?_
      rw [tbl_pushTable_of_le _ _ _
          (by rw [tables_setSlotIdx, export_alloc_tables]; exact hge),
        tbl_setSlotIdx, tbl_alloc]

theorem index_put_mem (st : State) (bi : Bool) (i : Nat) (tm : Tmpl)
    (hlen : i < st.tables.length) :
    (index_put_entry st bi i tm).2 ∈ tbl (index_put_entry st bi i tm).1 i := by
  cases h : hash_get st i (tmplMFA st tm) with
  | some r =>
    rw [index_put_entry_found h]
    exact (hash_get_some h).1
  | none =>
    rw [index_put_entry_miss h]
    dsimp only
    rw [tbl_pushTable_self _ _ _
        (by rw [tables_setSlotIdx, export_alloc_tables]; exact hlen)]
    exact List.mem_append_right _ (by simp)

theorem blobMFA?_index_put_of_entry (st : State) (bi : Bool) (i : Nat)
    (r : EntryRef) (b : Nat) :
    blobMFA? (index_put_entry st bi i (Tmpl.entry r)).1 b = blobMFA? st b := by
  cases h : hash_get st i (tmplMFA st (Tmpl.entry r)) with
  | some r2 => rw [index_put_entry_found h]
  | none =>
    rw [index_put_entry_miss h]
    dsimp only
    rw [blobMFA?_pushTable, blobMFA?_setSlotIdx]
    show blobMFA? (export_alloc st bi (Tmpl.entry r)).1 b = blobMFA? st b
    rw [export_alloc_entry_state]

theorem getBlob_index_put_of_entry_ne (st : State) (bi : Bool) (i : Nat)
    (r : EntryRef) (b : Nat) (hb : b ≠ r.blob) :
    getBlob (index_put_entry st bi i (Tmpl.entry r)).1 b = getBlob st b := by
  cases h : hash_get st i (tmplMFA st (Tmpl.entry r)) with
  | some r2 => rw [index_put_entry_found h]
  | none =>
    rw [index_put_entry_miss h]
    dsimp only
    rw [getBlob_pushTable]
    show getBlob (setSlotIdx _ _ _ _) b = getBlob st b
    rw [setSlotIdx, getBlob_updBlob_ne _ _ _ _
        (by rw [export_alloc_entry_blob]; exact hb)]
    show getBlob (export_alloc st bi (Tmpl.entry r)).1 b = getBlob st b
    rw [export_alloc_entry_state]

theorem blobs_length_index_put_of_entry (st : State) (bi : Bool) (i : Nat)
    (r : EntryRef) :
    (index_put_entry st bi i (Tmpl.entry r)).1.blobs.length
      = st.blobs.length := by
  cases h : hash_get st i (tmplMFA st (Tmpl.entry r)) with
  | some r2 => rw [index_put_entry_found h]
  | none =>
    rw [index_put_entry_miss h]
    dsimp only
    rw [blobs_pushTable]
    show (setSlotIdx _ _ _ _).blobs.length = st.blobs.length
    rw [setSlotIdx, blobs_length_updBlob]
    show (export_alloc st bi (Tmpl.entry r)).1.blobs.length = st.blobs.length
    rw [export_alloc_entry_state]

theorem uniq_of_keys_tables (st st' : State)
    (ht : st'.tables = st.tables)
    (hk : ∀ b, blobMFA? st' b = blobMFA? st b)
    (hu : Uniq st) : Uniq st' := by
  intro t1 ht1 t2 ht2 r1 hr1 r2 hr2 hs hkeq
  rw [ht] at ht1 ht2
  have e1 : keyOf? st' r1 = keyOf? st r1 := hk r1.blob
  have e2 : keyOf? st' r2 = keyOf? st r2 := hk r2.blob
  exact hu t1 ht1 t2 ht2 r1 hr1 r2 hr2 (by rw [← e1]; exact hs)
    (by rw [← e1, ← e2]; exact hkeq)

theorem uniq_pushTable (st : State) (i : Nat) (R : EntryRef)
    (hu : Uniq st)
    (hnew : ∀ t ∈ st.tables, ∀ r1 ∈ t, (keyOf? st r1).isSome = true →
        keyOf? st r1 = keyOf? st R → r1.blob = R.blob) :
    Uniq (pushTable st i R) := by
  have absorb : ∀ {t : List EntryRef} {x : EntryRef},
      t ∈ (pushTable st i R).tables → x ∈ t →
        (∃ y ∈ st.tables, x ∈ y) ∨ x = R := by
    intro t x ht hx
    rcases mem_updAt ht with h | ⟨y, hy, hty⟩
    · exact Or.inl ⟨t, h, hx⟩
    · subst hty
      rcases List.mem_append.mp hx with h | h
      · exact Or.inl ⟨y, hy, h⟩
      · exact Or.inr (List.mem_singleton.mp h)
  intro t1 ht1 t2 ht2 r1 hr1 r2 hr2 hs hkeq
  have hk1 : keyOf? (pushTable st i R) r1 = keyOf? st r1 := rfl
  have hk2 : keyOf? (pushTable st i R) r2 = keyOf? st r2 := rfl
  rw [hk1] at hs
  rw [hk1, hk2] at hkeq
  rcases absorb ht1 hr1 with ⟨y1, hy1, hr1'⟩ | h1
  · rcases absorb ht2 hr2 with ⟨y2, hy2, hr2'⟩ | h2
    · exact hu y1 hy1 y2 hy2 r1 hr1' r2 hr2' hs hkeq
    · subst h2
      exact hnew y1 hy1 r1 hr1' hs hkeq
  · subst h1
    rcases absorb ht2 hr2 with ⟨y2, hy2, hr2'⟩ | h2
    · refine (hnew y2 hy2 r2 hr2' ?_ hkeq.symm).symm
      rw [← hkeq]
      exact hs
    · rw [h2]

theorem uniq_index_put_of_entry (st : State) (bi : Bool) (i i0 : Nat)
    (r : EntryRef) (hu : Uniq st) (hr : r ∈ tbl st i0) :
    Uniq (index_put_entry st bi i (Tmpl.entry r)).1 := by
  cases h : hash_get st i (tmplMFA st (Tmpl.entry r)) with
  | some r2 =>
    rw [index_put_entry_found h]
    exact hu
  | none =>
    rw [index_put_entry_miss h]
    dsimp only
    refine uniq_pushTable _ i _ ?_ ?_
    · refine uniq_of_keys_tables st _ ?_ ?_ hu
      · rw [tables_setSlotIdx, export_alloc_tables]
      · intro b
        rw [blobMFA?_setSlotIdx]
        show blobMFA? (export_alloc st bi (Tmpl.entry r)).1 b = blobMFA? st b
        rw [export_alloc_entry_state]
    · intro t ht r1 hr1 hs hkeq
      have hS : ∀ x : EntryRef,
          keyOf? (setSlotIdx (export_alloc st bi (Tmpl.entry r)).1
              (export_alloc st bi (Tmpl.entry r)).2.blob
              (export_alloc st bi (Tmpl.entry r)).2.idx
              (Int.ofNat (tbl (export_alloc st bi (Tmpl.entry r)).1 i).length)) x
            = keyOf? st x := by
        intro x
        rw [keyOf?_eq_blobMFA?, blobMFA?_setSlotIdx]
        show blobMFA? (export_alloc st bi (Tmpl.entry r)).1 x.blob
          = blobMFA? st x.blob
        rw [export_alloc_entry_state]
      rw [hS r1] at hs hkeq
      rw [hS ((export_alloc st bi (Tmpl.entry r)).2)] at hkeq
      have htS : t ∈ st.tables := by
        have : (setSlotIdx (export_alloc st bi (Tmpl.entry r)).1
            (export_alloc st bi (Tmpl.entry r)).2.blob
            (export_alloc st bi (Tmpl.entry r)).2.idx
            (Int.ofNat (tbl (export_alloc st bi (Tmpl.entry r)).1 i).length)).tables
            = st.tables := by
          rw [tables_setSlotIdx, export_alloc_tables]
        rwa [this] at ht
      have hkr : keyOf? st ((export_alloc st bi (Tmpl.entry r)).2) = keyOf? st r := by
        rw [keyOf?_eq_blobMFA?, export_alloc_entry_blob]
        rfl
      rw [hkr] at hkeq
      rw [export_alloc_entry_blob]
      exact hu t htS (tbl st i0) (tbl_mem_tables hr) r1 hr1 r hr hs hkeq

theorem uniq_push_new_blob (st S : State) (i bstar : Nat) (mfa : MFA)
    (hu : Uniq st)
    (hnone : ∀ t ∈ st.tables, ∀ r' ∈ t, keyOf? st r' ≠ some mfa)
    (htab : S.tables = st.tables)
    (hknew : blobMFA? S bstar = some mfa)
    (hkold : ∀ b, b ≠ bstar → blobMFA? S b = blobMFA? st b)
    (R : EntryRef) (hR : R.blob = bstar) :
    Uniq (pushTable S i R) := by
  have huS : Uniq S := by
    intro t1 ht1 t2 ht2 r1 hr1 r2 hr2 hs hkeq
    rw [htab] at ht1 ht2
    have hkeq' : blobMFA? S r1.blob = blobMFA? S r2.blob := hkeq
    have hs' : (blobMFA? S r1.blob).isSome = true := hs
    by_cases h1 : r1.blob = bstar
    · by_cases h2 : r2.blob = bstar
      · rw [h1, h2]
      · exfalso
        rw [h1, hknew, hkold r2.blob h2] at hkeq'
        exact hnone t2 ht2 r2 hr2 hkeq'.symm
    · by_cases h2 : r2.blob = bstar
      · exfalso
        rw [hkold r1.blob h1, h2, hknew] at hkeq'
        exact hnone t1 ht1 r1 hr1 hkeq'
      · rw [hkold r1.blob h1] at hkeq' hs'
        rw [hkold r2.blob h2] at hkeq'
        exact hu t1 ht1 t2 ht2 r1 hr1 r2 hr2 hs' hkeq'
  refine uniq_pushTable S i R huS ?_
  intro t ht r1 hr1 hs hkeq
  rw [htab] at ht
  have hkeq' : blobMFA? S r1.blob = blobMFA? S R.blob := hkeq
  rw [hR, hknew] at hkeq'
  by_cases h1 : r1.blob = bstar
  · rw [h1, hR]
  · exfalso
    rw [hkold r1.blob h1] at hkeq'
    exact hnone t ht r1 hr1 hkeq'

theorem uniq_index_put_of_key (st : State) (bi : Bool) (i : Nat) (mfa : MFA)
    (hu : Uniq st)
    (hnone : ∀ t ∈ st.tables, ∀ r' ∈ t, keyOf? st r' ≠ some mfa) :
    Uniq (index_put_entry st bi i (Tmpl.key mfa)).1 := by
  cases h : hash_get st i (tmplMFA st (Tmpl.key mfa)) with
  | some r2 =>
    rw [index_put_entry_found h]
    exact hu
  | none =>
    rw [index_put_entry_miss h]
    dsimp only
    refine uniq_push_new_blob st _ i st.blobs.length mfa hu hnone ?_ ?_ ?_ _ rfl
    · rw [tables_setSlotIdx, export_alloc_tables]
    · rw [blobMFA?_setSlotIdx]
      exact blobMFA?_alloc_key_new st bi mfa
    · intro b hb
      rw [blobMFA?_setSlotIdx]
      exact blobMFA?_alloc_key_ne st bi mfa b hb

/-- C7: the hash of a FunctionIdentifier is the product of the unit and name
identifiers exclusive-ored with the arity (deterministic, being a function of
the identifier), and the equality the tables use (`export_cmp` returning
zero) is structural over all three fields; hence two identifiers differing
only by arity, such as (M,f,1) and (M,f,2), compare unequal whatever their
hashes do. -/
theorem export_hash_cmp_structural :
    (∀ x : MFA, export_hash x = (x.module * x.function) ^^^ x.arity)
    ∧ (∀ x y : MFA, export_cmp x y = false ↔ x = y)
    ∧ (∀ m f a a' : Nat, a ≠ a' →
        export_cmp { module := m, function := f, arity := a }
          { module := m, function := f, arity := a' } = true) := by
  refine ⟨fun x => rfl, export_cmp_eq_false_iff, ?_⟩
  intro m f a a' h
  cases hc : export_cmp ⟨m, f, a⟩ ⟨m, f, a'⟩ with
  | false =>
    exact absurd (congrArg MFA.arity ((export_cmp_eq_false_iff _ _).mp hc)) h
  | true => rfl

theorem export_hash_cmp_structural_witness :
    (1 : Nat) ≠ 2
    ∧ export_cmp { module := 5, function := 7, arity := 1 }
        { module := 5, function := 7, arity := 2 } = true :=
  ⟨by decide, export_hash_cmp_structural.2.2 5 7 1 2 (by decide)⟩

/-- C5: export_alloc invoked with a template (an identifier with no existing
blob, the opcode table being initialized) yields a fresh blob whose record
carries the template's identifier, trampoline operation
`op_call_error_handler`, the not-yet-a-builtin marker (`bif_number = -1`,
`is_bif_traced = 0`), every generation's dispatch address set to the
trampoline's address (so the trampoline is active in every generation), and
every slot entry unassigned — each slot entry points at the blob's own
record by construction of the blob.  The byte counter is charged by the
blob size. -/
theorem export_alloc_template_init (st : State) (mfa : MFA) :
    (export_alloc st true (Tmpl.key mfa)).2
        = { blob := st.blobs.length, idx := 0 }
    ∧ getBlob (export_alloc st true (Tmpl.key mfa)).1 st.blobs.length
        = some
          { exp :=
              { mfa := mfa, bif_number := -1, is_bif_traced := false,
                trampoline_op := op_call_error_handler,
                addresses := List.replicate ERTS_NUM_CODE_IX
                  (Addr.tramp st.blobs.length) }
            entryv := List.replicate ERTS_NUM_CODE_IX (-1) }
    ∧ (∀ ix < ERTS_NUM_CODE_IX,
        erts_is_export_trampoline_active (export_alloc st true (Tmpl.key mfa)).1
          st.blobs.length ix = true)
    ∧ (export_alloc st true (Tmpl.key mfa)).1.total_entries_bytes
        = st.total_entries_bytes + sizeof_export_blob := by
  have hg : getBlob (export_alloc st true (Tmpl.key mfa)).1 st.blobs.length
      = some
        { exp :=
            { mfa := mfa, bif_number := -1, is_bif_traced := false,
              trampoline_op := op_call_error_handler,
              addresses := List.replicate ERTS_NUM_CODE_IX
                (Addr.tramp st.blobs.length) }
          entryv := List.replicate ERTS_NUM_CODE_IX (-1) } := by
    show (st.blobs ++ [some _]).getD st.blobs.length none = some _
    rw [getD_append_self]
    rfl
  refine ⟨rfl, hg, ?_, rfl⟩
  intro ix hix
  unfold erts_is_export_trampoline_active addrAt addrAt?
  rw [hg]
  show ((List.replicate ERTS_NUM_CODE_IX (Addr.tramp st.blobs.length)).getD ix
      (Addr.code 0) == Addr.tramp st.blobs.length) = true
  rw [getD_replicate hix]
  simp

theorem export_alloc_template_init_witness :
    (0 : Nat) < ERTS_NUM_CODE_IX
    ∧ erts_is_export_trampoline_active
        (export_alloc
          { blobs := [], tables := [[], [], []], total_entries_bytes := 0 }
          true (Tmpl.key { module := 1, function := 2, arity := 3 })).1
        0 0 = true :=
  ⟨by decide,
    (export_alloc_template_init
      { blobs := [], tables := [[], [], []], total_entries_bytes := 0 }
      { module := 1, function := 2, arity := 3 }).2.2.1 0 (by decide)⟩

/-- C2: export_free marks the removed entry's slot unassigned (the surviving
blob's slot vector is the old one with position `j` overwritten by `-1`);
when some sibling slot of the same blob is still assigned the blob is not
deallocated and `total_entries_bytes` is unchanged, and when no sibling is
assigned the blob is deallocated and `total_entries_bytes` decreases by
exactly the blob size — so the blob dies exactly with its last generation
reference, never earlier. -/
theorem export_free_refcount (st : State) (b j : Nat) (bl : Blob)
    (hb : getBlob st b = some bl) (hj : j < bl.entryv.length) :
    ((∃ i, i < bl.entryv.length ∧ i ≠ j ∧ 0 ≤ bl.entryv.getD i 0) →
      getBlob (export_free st ⟨b, j⟩) b
          = some { bl with entryv := bl.entryv.set j (-1) }
      ∧ (export_free st ⟨b, j⟩).total_entries_bytes = st.total_entries_bytes)
    ∧ ((∀ i, i < bl.entryv.length → i ≠ j → bl.entryv.getD i 0 < 0) →
      getBlob (export_free st ⟨b, j⟩) b = none
      ∧ (export_free st ⟨b, j⟩).total_entries_bytes
          = st.total_entries_bytes - sizeof_export_blob) := by
  have hset : getBlob (setSlotIdx st b j (-1)) b
      = some { bl with entryv := bl.entryv.set j (-1) } := by
    rw [setSlotIdx, getBlob_updBlob_self, hb]
    rfl
  constructor
  · intro ⟨i, hi, hij, hpos⟩
    have hany : (bl.entryv.set j (-1)).any (fun v => decide (0 ≤ v)) = true := by
      rw [List.any_eq_true]
      refine ⟨(bl.entryv.set j (-1)).getD i 0, ?_, ?_⟩
      · exact getD_mem_of_lt (by rw [List.length_set]; exact hi)
      · rw [getD_set_ne hij]
        exact decide_eq_true hpos
    have hE : export_free st ⟨b, j⟩ = setSlotIdx st b j (-1) := by
      unfold export_free
      dsimp only
      rw [hset]
      dsimp only
      simp [hany]
    rw [hE]
    exact ⟨hset, rfl⟩
  · intro hall
    have hany : (bl.entryv.set j (-1)).any (fun v => decide (0 ≤ v)) = false := by
      rw [Bool.eq_false_iff]
      intro hc
      rw [List.any_eq_true] at hc
      rcases hc with ⟨x, hx, hpx⟩
      rcases mem_index (d := 0) hx with ⟨i, hi, hgi⟩
      rw [List.length_set] at hi
      have hx0 : (0 : Int) ≤ x := of_decide_eq_true hpx
      by_cases hij : i = j
      · subst hij
        rw [getD_set_self hi] at hgi
        rw [← hgi] at hx0
        exact absurd hx0 (by decide)
      · rw [getD_set_ne hij] at hgi
        have := hall i hi hij
        rw [hgi] at this
        exact absurd hx0 (Int.not_le.mpr this)
    have hblt : b < st.blobs.length := getBlob_some_lt hb
    have hE : export_free st ⟨b, j⟩
        = { setSlotIdx st b j (-1) with
              blobs := (setSlotIdx st b j (-1)).blobs.set b none
              total_entries_bytes :=
                (setSlotIdx st b j (-1)).total_entries_bytes
                  - sizeof_export_blob } := by
      unfold export_free
      dsimp only
      rw [hset]
      dsimp only
      simp [hany]
    rw [hE]
    constructor
    · show ((setSlotIdx st b j (-1)).blobs.set b none).getD b none = none
      have hlen : b < (setSlotIdx st b j (-1)).blobs.length := by
        rw [setSlotIdx, blobs_length_updBlob]
        exact hblt
      rw [getD_set_self hlen]
    · rfl

theorem export_free_refcount_witness :
    getBlob (export_free sampleState ⟨0, 0⟩) 0 = none
    ∧ (export_free sampleState ⟨0, 0⟩).total_entries_bytes
        = sampleState.total_entries_bytes - sizeof_export_blob := by
  have h := export_free_refcount sampleState 0 0 sampleBlob (by rfl) (by decide)
  exact h.2 (by decide)

/-- C9: in export_alloc's non-template branch the state is untouched and the
returned entry lies in the template entry's own blob; when the blob has an
unassigned slot the linear scan stops within `ERTS_NUM_CODE_IX` steps at the
lowest-index unassigned slot, and when every slot is assigned the returned
position is `ERTS_NUM_CODE_IX` — one past the end of the entry array, the
out-of-bounds read of the C loop that only the debug assertion guards. -/
theorem export_alloc_scan (st : State) (bi : Bool) (r : EntryRef) (bl : Blob)
    (hb : getBlob st r.blob = some bl)
    (hlen : bl.entryv.length = ERTS_NUM_CODE_IX) :
    (export_alloc st bi (Tmpl.entry r)).1 = st
    ∧ (export_alloc st bi (Tmpl.entry r)).2.blob = r.blob
    ∧ ((∃ i, i < ERTS_NUM_CODE_IX ∧ bl.entryv.getD i 0 < 0) →
        (export_alloc st bi (Tmpl.entry r)).2.idx < ERTS_NUM_CODE_IX
        ∧ bl.entryv.getD (export_alloc st bi (Tmpl.entry r)).2.idx 0 < 0
        ∧ ∀ k < (export_alloc st bi (Tmpl.entry r)).2.idx,
            0 ≤ bl.entryv.getD k 0)
    ∧ ((∀ i < ERTS_NUM_CODE_IX, 0 ≤ bl.entryv.getD i 0) →
        (export_alloc st bi (Tmpl.entry r)).2.idx = ERTS_NUM_CODE_IX) := by
  have hidx : (export_alloc st bi (Tmpl.entry r)).2.idx = scanFree bl.entryv := by
    simp only [export_alloc, hb]
  refine ⟨by simp only [export_alloc], by simp only [export_alloc], ?_, ?_⟩
  · intro ⟨i, hi, hneg⟩
    rw [hidx]
    have hfree : scanFree bl.entryv < bl.entryv.length :=
      scanFree_lt_of_free bl.entryv ⟨i, by rw [hlen]; exact hi, hneg⟩
    refine ⟨by rw [← hlen]; exact hfree, scanFree_getD bl.entryv hfree,
      fun k hk => scanFree_min bl.entryv k hk⟩
  · intro hall
    rw [hidx, ← hlen]
    exact scanFree_eq_length bl.entryv (fun i hi => hall i (by rw [← hlen]; exact hi))

theorem export_alloc_scan_witness :
    (export_alloc sampleState false (Tmpl.entry ⟨0, 0⟩)).2.idx < ERTS_NUM_CODE_IX
    ∧ sampleBlob.entryv.getD
        (export_alloc sampleState false (Tmpl.entry ⟨0, 0⟩)).2.idx 0 < 0 := by
  have h := export_alloc_scan sampleState false ⟨0, 0⟩ sampleBlob (by rfl) (by decide)
  have h2 := h.2.2.1 ⟨1, by decide, by decide⟩
  exact ⟨h2.1, h2.2.1⟩

/-- C10: export_get looks the given record's own identifier up structurally
in the active generation's table and returns the stored record (none when
the identifier is absent); under blob uniqueness, for a record reachable
from the active generation's table the returned record is the given record
itself. -/
theorem export_get_identity :
    (∀ (st : State) (a b : Nat),
        hash_get st a ((blobMFA? st b).getD default) = none →
          export_get st a b = none)
    ∧ (∀ (st : State) (a b j : Nat) (bl : Blob), Uniq st →
        getBlob st b = some bl → (⟨b, j⟩ : EntryRef) ∈ tbl st a →
          export_get st a b = some b) := by
  constructor
  · intro st a b h
    unfold export_get
    rw [h]
    rfl
  · intro st a b j bl hu hb hmem
    have hkey : (blobMFA? st b).getD default = bl.exp.mfa := by
      unfold blobMFA?
      rw [hb]
      rfl
    have hkmem : keyOf? st (⟨b, j⟩ : EntryRef) = some bl.exp.mfa := by
      unfold keyOf? blobMFA?
      rw [hb]
      rfl
    rcases hash_get_isSome hmem (by rw [hkmem, ← hkey]) with ⟨r', hr'⟩
    rcases hash_get_some hr' with ⟨hr'mem, hr'key⟩
    have hblob : r'.blob = b := by
      have ht := tbl_mem_tables hmem
      refine hu (tbl st a) ht (tbl st a) ht r' hr'mem ⟨b, j⟩ hmem ?_ ?_
      · rw [hr'key]; rfl
      · rw [hr'key, hkmem, hkey]
    unfold export_get
    rw [hr']
    simp [hblob]

theorem export_get_identity_witness :
    Uniq sampleState ∧ export_get sampleState 0 0 = some 0 := by
  refine ⟨by decide, ?_⟩
  exact export_get_identity.2 sampleState 0 0 0 sampleBlob (by decide) (by rfl)
    (by decide)

theorem index_put_of_entry_result_blob (st : State) (bi : Bool) (i i0 : Nat)
    (r : EntryRef) (mfa0 : MFA) (hu : Uniq st) (hr : r ∈ tbl st i0)
    (hk : keyOf? st r = some mfa0) :
    (index_put_entry st bi i (Tmpl.entry r)).2.blob = r.blob := by
  cases h : hash_get st i (tmplMFA st (Tmpl.entry r)) with
  | some r2 =>
    rw [index_put_entry_found h]
    have htm : tmplMFA st (Tmpl.entry r) = mfa0 := by
      show (keyOf? st r).getD default = mfa0
      rw [hk]
      rfl
    have h2 := hash_get_some h
    refine hu (tbl st i) (tbl_mem_tables h2.1) (tbl st i0) (tbl_mem_tables hr)
      r2 h2.1 r hr ?_ ?_
    · rw [h2.2]
      rfl
    · rw [h2.2, htm, hk]
  | none =>
    rw [index_put_entry_miss h]
    exact export_alloc_entry_blob st bi r

theorem index_put_key_growth (st : State) (bi : Bool) (i : Nat) (mfa : MFA)
    (h : (index_put_entry st bi i (Tmpl.key mfa)).1.blobs.length
      ≠ st.blobs.length) :
    hash_get st i mfa = none := by
  cases hg : hash_get st i (tmplMFA st (Tmpl.key mfa)) with
  | some r =>
    exfalso
    apply h
    rw [index_put_entry_found hg]
  | none => exact hg

theorem keyOf_index_put_of_key (st : State) (bi : Bool) (i : Nat) (mfa : MFA) :
    keyOf? (index_put_entry st bi i (Tmpl.key mfa)).1
        (index_put_entry st bi i (Tmpl.key mfa)).2 = some mfa := by
  cases h : hash_get st i (tmplMFA st (Tmpl.key mfa)) with
  | some r => rw [index_put_entry_found h]; exact (hash_get_some h).2
  | none =>
    rw [index_put_entry_miss h]
    dsimp only
    show blobMFA? (pushTable _ i _) (export_alloc st bi (Tmpl.key mfa)).2.blob
      = some mfa
    rw [blobMFA?_pushTable, blobMFA?_setSlotIdx]
    exact blobMFA?_alloc_key_new st bi mfa

/-- C6: at most one blob ever backs one identifier.  A fresh blob appears
only when `export_alloc` runs its template branch, which happens only when
the identifier is held by no generation (given the protocol invariant that
any identifier held anywhere is also in the table being inserted into);
upserting a live entry into a further generation reuses its blob (the
returned slot entry lies in the same blob, and the blob heap does not
grow), and blob uniqueness is preserved by both insertion forms — so
entries for one identifier in different generation tables always reference
the same record. -/
theorem blob_uniqueness (st : State) (bi : Bool) (d i0 : Nat) (mfa mfa0 : MFA)
    (r0 : EntryRef)
    (hu : Uniq st)
    (hcover : ∀ t ∈ st.tables, ∀ r' ∈ t, keyOf? st r' = some mfa →
        ∃ r2 ∈ tbl st d, keyOf? st r2 = some mfa)
    (hr0 : r0 ∈ tbl st i0) (hk0 : keyOf? st r0 = some mfa0) :
    ((index_put_entry st bi d (Tmpl.key mfa)).1.blobs.length ≠ st.blobs.length →
        ∀ t ∈ st.tables, ∀ r' ∈ t, keyOf? st r' ≠ some mfa)
    ∧ Uniq (index_put_entry st bi d (Tmpl.key mfa)).1
    ∧ (index_put_entry st bi d (Tmpl.entry r0)).2.blob = r0.blob
    ∧ (index_put_entry st bi d (Tmpl.entry r0)).1.blobs.length = st.blobs.length
    ∧ Uniq (index_put_entry st bi d (Tmpl.entry r0)).1 := by
  refine ⟨?_, ?_,
    index_put_of_entry_result_blob st bi d i0 r0 mfa0 hu hr0 hk0,
    blobs_length_index_put_of_entry st bi d r0,
    uniq_index_put_of_entry st bi d i0 r0 hu hr0⟩
  · intro hne t ht r' hr' hkey
    have hnone := hash_get_none (index_put_key_growth st bi d mfa hne)
    rcases hcover t ht r' hr' hkey with ⟨r2, hr2, hk2⟩
    exact hnone r2 hr2 hk2
  · cases h : hash_get st d (tmplMFA st (Tmpl.key mfa)) with
    | some r2 =>
      rw [index_put_entry_found h]
      exact hu
    | none =>
      refine uniq_index_put_of_key st bi d mfa hu ?_
      intro t ht r' hr' hkey
      rcases hcover t ht r' hr' hkey with ⟨r2, hr2, hk2⟩
      exact hash_get_none h r2 hr2 hk2

theorem blob_uniqueness_witness :
    Uniq sampleState
    ∧ Uniq (index_put_entry sampleState true 0
        (Tmpl.key { module := 1, function := 2, arity := 0 })).1
    ∧ (index_put_entry sampleState true 0 (Tmpl.entry ⟨0, 0⟩)).2.blob = 0 := by
  have h := blob_uniqueness sampleState true 0 0
    { module := 1, function := 2, arity := 0 }
    { module := 1, function := 2, arity := 0 } ⟨0, 0⟩
    (by decide) (by decide) (by decide) (by rfl)
  exact ⟨by decide, h.2.1, h.2.2.1⟩

/-- C8: erts_export_put upserts the identifier in the staging generation's
table only and returns its record: every generation other than the staging
one keeps exactly its old table, the returned entry is present in the
staging generation's table afterwards, and its record carries the requested
identifier. -/
theorem erts_export_put_staging_only (st : State) (bi : Bool) (s m f a : Nat)
    (hs : s < st.tables.length) :
    (∀ i, i ≠ s → tbl (erts_export_put st bi s m f a).1 i = tbl st i)
    ∧ (erts_export_put st bi s m f a).2
        ∈ tbl (erts_export_put st bi s m f a).1 s
    ∧ keyOf? (erts_export_put st bi s m f a).1 (erts_export_put st bi s m f a).2
        = some { module := m, function := f, arity := a } := by
  unfold erts_export_put
  exact ⟨fun i hi => tbl_index_put_ne st bi s _ i hi,
    index_put_mem st bi s _ hs,
    keyOf_index_put_of_key st bi s _⟩

theorem erts_export_put_staging_only_witness :
    (1 : Nat) < sampleState.tables.length
    ∧ tbl (erts_export_put sampleState true 1 3 4 0).1 0 = tbl sampleState 0 := by
  have h := erts_export_put_staging_only sampleState true 1 3 4 0 (by decide)
  exact ⟨by decide, h.1 0 (by decide)⟩

theorem getBlob_setSlotIdx_self (st : State) (b j : Nat) (v : Int) :
    getBlob (setSlotIdx st b j v) b
      = (getBlob st b).map (fun bl => { bl with entryv := bl.entryv.set j v }) :=
  getBlob_updBlob_self st b _

theorem getBlob_index_put_key_result (st : State) (bi : Bool) (i : Nat)
    (mfa : MFA)
    (hvalid : ∀ t ∈ st.tables, ∀ r' ∈ t, (getBlob st r'.blob).isSome = true) :
    (getBlob (index_put_entry st bi i (Tmpl.key mfa)).1
      (index_put_entry st bi i (Tmpl.key mfa)).2.blob).isSome = true := by
  cases h : hash_get st i (tmplMFA st (Tmpl.key mfa)) with
  | some r =>
    rw [index_put_entry_found h]
    have h2 := hash_get_some h
    exact hvalid (tbl st i) (tbl_mem_tables h2.1) r h2.1
  | none =>
    rw [index_put_entry_miss h]
    dsimp only
    rw [getBlob_pushTable]
    show (getBlob (setSlotIdx (export_alloc st bi (Tmpl.key mfa)).1
        st.blobs.length 0
        (Int.ofNat (tbl (export_alloc st bi (Tmpl.key mfa)).1 i).length))
      st.blobs.length).isSome = true
    rw [getBlob_setSlotIdx_self, getBlob_alloc_key_new]
    rfl

theorem stub_iter_valid (st : State) (bi : Bool) (mfa : MFA) (a1 a2 s2 : Nat)
    (hvalid : ∀ t ∈ st.tables, ∀ r' ∈ t, (getBlob st r'.blob).isSome = true)
    {res : State × Nat} (h : stub_iter st bi mfa a1 a2 s2 = some res) :
    (getBlob res.1 res.2).isSome = true := by
  unfold stub_iter at h
  cases hg : hash_get st a1 mfa with
  | some r =>
    rw [hg] at h
    injection h with h2
    rw [← h2]
    exact hvalid (tbl st a1) (tbl_mem_tables (hash_get_some hg).1) r
      (hash_get_some hg).1
  | none =>
    rw [hg] at h
    by_cases ha : a2 = a1
    · rw [if_pos ha] at h
      injection h with h2
      rw [← h2]
      exact getBlob_index_put_key_result st bi s2 mfa hvalid
    · rw [if_neg ha] at h
      cases h

theorem stub_iter_none_iff (st : State) (bi : Bool) (mfa : MFA)
    (a1 a2 s2 : Nat) :
    stub_iter st bi mfa a1 a2 s2 = none ↔
      (hash_get st a1 mfa = none ∧ a2 ≠ a1) := by
  unfold stub_iter
  cases hg : hash_get st a1 mfa with
  | some r => simp
  | none =>
    by_cases ha : a2 = a1
    · simp [ha]
    · simp [ha]

theorem get_or_make_stub_spec (bi : Bool) (mfa : MFA) (st : State)
    (hvalid : ∀ t ∈ st.tables, ∀ r' ∈ t, (getBlob st r'.blob).isSome = true) :
    ∀ sched : List (Nat × Nat × Nat),
      (∃ e ∈ sched, e.2.1 = e.1) →
      ∃ st' b, erts_export_get_or_make_stub bi mfa st sched = some (st', b)
        ∧ (getBlob st' b).isSome = true := by
  intro sched
  induction sched with
  | nil =>
    rintro ⟨e, he, _⟩
    cases he
  | cons e rest ih =>
    rintro ⟨e0, he0, heq⟩
    obtain ⟨a1, a2, s2⟩ := e
    cases hit : stub_iter st bi mfa a1 a2 s2 with
    | some res =>
      refine ⟨res.1, res.2, ?_, stub_iter_valid st bi mfa a1 a2 s2 hvalid hit⟩
      show (match stub_iter st bi mfa a1 a2 s2 with
        | some res => some res
        | none => erts_export_get_or_make_stub bi mfa st rest)
          = some (res.1, res.2)
      rw [hit]
    | none =>
      have hrest : ∃ e ∈ rest, e.2.1 = e.1 := by
        rcases List.mem_cons.mp he0 with h | h
        · exfalso
          subst h
          have := (stub_iter_none_iff st bi mfa a1 a2 s2).mp hit
          exact this.2 heq
        · exact ⟨e0, h, heq⟩
      rcases ih hrest with ⟨st', b, hres, hv⟩
      refine ⟨st', b, ?_, hv⟩
      show (match stub_iter st bi mfa a1 a2 s2 with
        | some res => some res
        | none => erts_export_get_or_make_stub bi mfa st rest) = some (st', b)
      rw [hit]
      exact hres

/-- C3: erts_export_get_or_make_stub never returns an absent record.  An
iteration retries exactly when the identifier was absent from the active
generation it read without the lock AND the active index re-read under the
staging lock differs from that read (a commit raced); when the re-read
index is unchanged it inserts the identifier into the staging generation
and returns; hence for any observation schedule containing at least one
race-free iteration (the normal-operation guarantee) the loop terminates
with a record, and the returned record is a live blob — never null. -/
theorem erts_export_get_or_make_stub_total (bi : Bool) (mfa : MFA) (st : State)
    (sched : List (Nat × Nat × Nat))
    (hvalid : ∀ t ∈ st.tables, ∀ r' ∈ t, (getBlob st r'.blob).isSome = true)
    (hsched : ∃ e ∈ sched, e.2.1 = e.1) :
    (∀ a1 a2 s2, stub_iter st bi mfa a1 a2 s2 = none ↔
        (hash_get st a1 mfa = none ∧ a2 ≠ a1))
    ∧ ∃ st' b, erts_export_get_or_make_stub bi mfa st sched = some (st', b)
        ∧ (getBlob st' b).isSome = true :=
  ⟨fun a1 a2 s2 => stub_iter_none_iff st bi mfa a1 a2 s2,
    get_or_make_stub_spec bi mfa st hvalid sched hsched⟩

theorem erts_find_function_none_iff (st : State) (ix m f a : Nat) :
    erts_find_function st ix m f a = none ↔
      (hash_get st ix { module := m, function := f, arity := a } = none
       ∨ ∃ r, hash_get st ix { module := m, function := f, arity := a } = some r
           ∧ erts_is_export_trampoline_active st r.blob ix = true
           ∧ trampolineOp st r.blob ≠ op_i_generic_breakpoint) := by
  unfold erts_find_function
  cases hg : hash_get st ix { module := m, function := f, arity := a } with
  | none => simp
  | some r =>
    dsimp only
    cases hc : (erts_is_export_trampoline_active st r.blob ix
        && !(trampolineOp st r.blob == op_i_generic_breakpoint)) with
    | true =>
      rw [if_pos rfl]
      rw [Bool.and_eq_true] at hc
      constructor
      · intro _
        refine Or.inr ⟨r, rfl, hc.1, ?_⟩
        have h2 := hc.2
        rw [Bool.not_eq_true'] at h2
        intro hcn
        rw [hcn] at h2
        simp at h2
      · intro _
        rfl
    | false =>
      rw [if_neg (by simp)]
      constructor
      · intro h
        cases h
      · rintro (h | ⟨r', hr', hact, hop⟩)
        · cases h
        · exfalso
          injection hr' with hrr
          subst hrr
          have hb2 : (trampolineOp st r.blob == op_i_generic_breakpoint)
              = false := by
            cases hb : (trampolineOp st r.blob == op_i_generic_breakpoint) with
            | false => rfl
            | true =>
              rw [beq_iff_eq] at hb
              exact absurd hb hop
          rw [hact, hb2] at hc
          simp at hc

theorem index_put_key_miss_result (st : State) (bi : Bool) (i : Nat)
    (mfa : MFA) (h : hash_get st i mfa = none) :
    (index_put_entry st bi i (Tmpl.key mfa)).2
      = { blob := st.blobs.length, idx := 0 } := by
  have h' : hash_get st i (tmplMFA st (Tmpl.key mfa)) = none := h
  rw [index_put_entry_miss h']
  rfl

theorem hash_get_index_put_key_self (st : State) (bi : Bool) (i : Nat)
    (mfa : MFA)
    (hvalid : ∀ t ∈ st.tables, ∀ r' ∈ t, (getBlob st r'.blob).isSome = true)
    (hlen : i < st.tables.length)
    (h : hash_get st i mfa = none) :
    hash_get (index_put_entry st bi i (Tmpl.key mfa)).1 i mfa
      = some { blob := st.blobs.length, idx := 0 } := by
  have h' : hash_get st i (tmplMFA st (Tmpl.key mfa)) = none := h
  rw [index_put_entry_miss h']
  dsimp only
  unfold hash_get
  rw [tbl_pushTable_self _ _ _
      (by rw [tables_setSlotIdx, export_alloc_tables]; exact hlen)]
  have htbl : tbl (setSlotIdx (export_alloc st bi (Tmpl.key mfa)).1
      (export_alloc st bi (Tmpl.key mfa)).2.blob
      (export_alloc st bi (Tmpl.key mfa)).2.idx
      (Int.ofNat (tbl (export_alloc st bi (Tmpl.key mfa)).1 i).length)) i
      = tbl st i := by
    rw [tbl_setSlotIdx, tbl_alloc]
  rw [htbl]
  have hkeys : ∀ r' : EntryRef, r'.blob ≠ st.blobs.length →
      keyOf? (pushTable (setSlotIdx (export_alloc st bi (Tmpl.key mfa)).1
          (export_alloc st bi (Tmpl.key mfa)).2.blob
          (export_alloc st bi (Tmpl.key mfa)).2.idx
          (Int.ofNat (tbl (export_alloc st bi (Tmpl.key mfa)).1 i).length)) i
          (export_alloc st bi (Tmpl.key mfa)).2) r'
        = keyOf? st r' := by
    intro r' hb
    show blobMFA? _ r'.blob = blobMFA? st r'.blob
    rw [blobMFA?_pushTable, blobMFA?_setSlotIdx]
    exact blobMFA?_alloc_key_ne st bi mfa r'.blob hb
  rw [find?_append_none]
  · apply List.find?_cons_of_pos
    apply (hash_get_pred_iff _ mfa _).mpr
    show blobMFA? _ (export_alloc st bi (Tmpl.key mfa)).2.blob = some mfa
    rw [blobMFA?_pushTable, blobMFA?_setSlotIdx]
    exact blobMFA?_alloc_key_new st bi mfa
  · apply List.find?_eq_none.mpr
    intro r' hr' hp
    have hkey := (hash_get_pred_iff _ mfa r').mp hp
    have hbne : r'.blob ≠ st.blobs.length := by
      intro hbe
      have hv := hvalid (tbl st i) (tbl_mem_tables hr') r' hr'
      have hlt : r'.blob < st.blobs.length := by
        cases hgb : getBlob st r'.blob with
        | none => rw [hgb] at hv; cases hv
        | some bl => exact getBlob_some_lt hgb
      rw [hbe] at hlt
      exact Nat.lt_irrefl _ hlt
    rw [hkeys r' hbne] at hkey
    exact hash_get_none h r' hr' hkey

theorem getBlob_index_put_key_new (st : State) (bi : Bool) (i : Nat)
    (mfa : MFA) (h : hash_get st i mfa = none) :
    getBlob (index_put_entry st bi i (Tmpl.key mfa)).1 st.blobs.length
      = some
        { exp := (newBlob st.blobs.length bi mfa).exp
          entryv := (newBlob st.blobs.length bi mfa).entryv.set 0
            (Int.ofNat (tbl (export_alloc st bi (Tmpl.key mfa)).1 i).length) } := by
  have h' : hash_get st i (tmplMFA st (Tmpl.key mfa)) = none := h
  rw [index_put_entry_miss h']
  dsimp only
  rw [getBlob_pushTable]
  show getBlob (setSlotIdx (export_alloc st bi (Tmpl.key mfa)).1
      st.blobs.length 0
      (Int.ofNat (tbl (export_alloc st bi (Tmpl.key mfa)).1 i).length))
    st.blobs.length = _
  rw [getBlob_setSlotIdx_self, getBlob_alloc_key_new]
  rfl

theorem stub_then_patch (st : State) (m f a a1 s2 : Nat)
    (hvalid : ∀ t ∈ st.tables, ∀ r' ∈ t, (getBlob st r'.blob).isSome = true)
    (hslen : s2 < st.tables.length) (hsN : s2 < ERTS_NUM_CODE_IX)
    (h1 : hash_get st a1 { module := m, function := f, arity := a } = none)
    (h2 : hash_get st s2 { module := m, function := f, arity := a } = none) :
    erts_export_get_or_make_stub true { module := m, function := f, arity := a }
        st [(a1, a1, s2)]
      = some ((index_put_entry st true s2
          (Tmpl.key { module := m, function := f, arity := a })).1,
          st.blobs.length)
    ∧ erts_find_function (index_put_entry st true s2
        (Tmpl.key { module := m, function := f, arity := a })).1 s2 m f a = none
    ∧ ∀ ca : Nat,
        erts_find_function
          (patch (index_put_entry st true s2
              (Tmpl.key { module := m, function := f, arity := a })).1
            st.blobs.length s2 (Addr.code ca)) s2 m f a
          = some st.blobs.length := by
  have hblob : (index_put_entry st true s2
      (Tmpl.key { module := m, function := f, arity := a })).2
      = { blob := st.blobs.length, idx := 0 } :=
    index_put_key_miss_result st true s2 _ h2
  have hget : hash_get (index_put_entry st true s2
      (Tmpl.key { module := m, function := f, arity := a })).1 s2
      { module := m, function := f, arity := a }
      = some { blob := st.blobs.length, idx := 0 } :=
    hash_get_index_put_key_self st true s2 _ hvalid hslen h2
  have hblobnew := getBlob_index_put_key_new st true s2
    { module := m, function := f, arity := a } h2
  have hact : erts_is_export_trampoline_active (index_put_entry st true s2
      (Tmpl.key { module := m, function := f, arity := a })).1
      st.blobs.length s2 = true := by
    unfold erts_is_export_trampoline_active addrAt addrAt?
    rw [hblobnew]
    show ((List.replicate ERTS_NUM_CODE_IX
        (Addr.tramp st.blobs.length)).getD s2 (Addr.code 0)
      == Addr.tramp st.blobs.length) = true
    rw [getD_replicate hsN]
    simp
  have hop : trampolineOp (index_put_entry st true s2
      (Tmpl.key { module := m, function := f, arity := a })).1
      st.blobs.length = op_call_error_handler := by
    unfold trampolineOp
    rw [hblobnew]
    rfl
  refine ⟨?_, ?_, ?_⟩
  · have hloop : erts_export_get_or_make_stub true
        { module := m, function := f, arity := a } st [(a1, a1, s2)]
        = some ((index_put_entry st true s2
            (Tmpl.key { module := m, function := f, arity := a })).1,
          (index_put_entry st true s2
            (Tmpl.key { module := m, function := f, arity := a })).2.blob) := by
      show (match stub_iter st true { module := m, function := f, arity := a }
          a1 a1 s2 with
        | some res => some res
        | none => erts_export_get_or_make_stub true
            { module := m, function := f, arity := a } st []) = _
      unfold stub_iter
      rw [h1, if_pos rfl]
    rw [hloop, hblob]
  · unfold erts_find_function
    rw [hget]
    dsimp only
    rw [hact, hop, if_pos (by decide)]
  · intro ca
    have hgetP : hash_get (patch (index_put_entry st true s2
        (Tmpl.key { module := m, function := f, arity := a })).1
        st.blobs.length s2 (Addr.code ca)) s2
        { module := m, function := f, arity := a }
        = some { blob := st.blobs.length, idx := 0 } := by
      have hcg : hash_get (setBlobAddr (index_put_entry st true s2
          (Tmpl.key { module := m, function := f, arity := a })).1
          st.blobs.length s2 (Addr.code ca)) s2
          { module := m, function := f, arity := a }
          = hash_get (index_put_entry st true s2
            (Tmpl.key { module := m, function := f, arity := a })).1 s2
            { module := m, function := f, arity := a } :=
        hash_get_congr rfl (fun r => blobMFA?_setBlobAddr _ _ _ _ r.blob)
      exact hcg.trans hget
    have hblobP : getBlob (patch (index_put_entry st true s2
        (Tmpl.key { module := m, function := f, arity := a })).1
        st.blobs.length s2 (Addr.code ca)) st.blobs.length
        = some
          { exp :=
              { (newBlob st.blobs.length true
                  { module := m, function := f, arity := a }).exp with
                addresses := (List.replicate ERTS_NUM_CODE_IX
                  (Addr.tramp st.blobs.length)).set s2 (Addr.code ca) }
            entryv := (newBlob st.blobs.length true
                { module := m, function := f, arity := a }).entryv.set 0
              (Int.ofNat (tbl (export_alloc st true
                (Tmpl.key { module := m, function := f, arity := a })).1
                s2).length) } := by
      show getBlob (updBlob _ st.blobs.length _) st.blobs.length = _
      rw [getBlob_updBlob_self, hblobnew]
      rfl
    have hactP : erts_is_export_trampoline_active
        (patch (index_put_entry st true s2
          (Tmpl.key { module := m, function := f, arity := a })).1
          st.blobs.length s2 (Addr.code ca)) st.blobs.length s2 = false := by
      unfold erts_is_export_trampoline_active addrAt addrAt?
      rw [hblobP]
      show (((List.replicate ERTS_NUM_CODE_IX
          (Addr.tramp st.blobs.length)).set s2 (Addr.code ca)).getD s2
          (Addr.code 0) == Addr.tramp st.blobs.length) = false
      rw [getD_set_self (by rw [List.length_replicate]; exact hsN)]
      exact beq_eq_false_iff_ne.mpr (fun hco => Addr.noConfusion hco)
    unfold erts_find_function
    rw [hgetP]
    dsimp only
    rw [hactP, if_neg (by simp)]

/-- C4: erts_find_function returns none exactly when the identifier is
absent from the given generation's table, or the record's
generation-specific dispatch address equals the trampoline while the
trampoline's operation is not the installed-breakpoint opcode; in
particular an identifier inserted only via erts_export_get_or_make_stub
(and never patched) is filtered out of the generation it was inserted
into, and once that generation's dispatch address is patched to a
non-trampoline (real code) address the record is returned. -/
theorem erts_find_function_filters_stubs :
    (∀ (st : State) (ix m f a : Nat),
        erts_find_function st ix m f a = none ↔
          (hash_get st ix { module := m, function := f, arity := a } = none
           ∨ ∃ r, hash_get st ix { module := m, function := f, arity := a }
                = some r
              ∧ erts_is_export_trampoline_active st r.blob ix = true
              ∧ trampolineOp st r.blob ≠ op_i_generic_breakpoint))
    ∧ (∀ (st : State) (m f a a1 s2 : Nat),
        (∀ t ∈ st.tables, ∀ r' ∈ t, (getBlob st r'.blob).isSome = true) →
        s2 < st.tables.length → s2 < ERTS_NUM_CODE_IX →
        hash_get st a1 { module := m, function := f, arity := a } = none →
        hash_get st s2 { module := m, function := f, arity := a } = none →
        erts_export_get_or_make_stub true
            { module := m, function := f, arity := a } st [(a1, a1, s2)]
          = some ((index_put_entry st true s2
              (Tmpl.key { module := m, function := f, arity := a })).1,
              st.blobs.length)
        ∧ erts_find_function (index_put_entry st true s2
            (Tmpl.key { module := m, function := f, arity := a })).1 s2 m f a
            = none
        ∧ ∀ ca : Nat,
            erts_find_function
              (patch (index_put_entry st true s2
                  (Tmpl.key { module := m, function := f, arity := a })).1
                st.blobs.length s2 (Addr.code ca)) s2 m f a
              = some st.blobs.length) :=
  ⟨erts_find_function_none_iff,
    fun st m f a a1 s2 hv h1 h2 h3 h4 =>
      stub_then_patch st m f a a1 s2 hv h1 h2 h3 h4⟩

theorem erts_find_function_filters_stubs_witness :
    erts_find_function (index_put_entry sampleState true 1
        (Tmpl.key { module := 3, function := 4, arity := 0 })).1 1 3 4 0 = none
    ∧ erts_find_function
        (patch (index_put_entry sampleState true 1
            (Tmpl.key { module := 3, function := 4, arity := 0 })).1
          1 1 (Addr.code 99)) 1 3 4 0 = some 1 := by
  have h := erts_find_function_filters_stubs.2 sampleState 3 4 0 0 1
    (by decide) (by decide) (by decide) (by decide) (by decide)
  exact ⟨h.2.1, h.2.2 99⟩

theorem erts_export_get_or_make_stub_total_witness :
    (∃ e ∈ [((0 : Nat), (0 : Nat), (1 : Nat))], e.2.1 = e.1)
    ∧ ∃ st' b,
        erts_export_get_or_make_stub true { module := 3, function := 4, arity := 0 }
          sampleState [(0, 0, 1)] = some (st', b)
        ∧ (getBlob st' b).isSome = true := by
  refine ⟨⟨(0, 0, 1), by simp⟩, ?_⟩
  exact (erts_export_get_or_make_stub_total true
    { module := 3, function := 4, arity := 0 } sampleState [(0, 0, 1)]
    (by decide) ⟨(0, 0, 1), by simp⟩).2

theorem validRef_spec {st : State} {r : EntryRef} (h : validRef st r = true) :
    ∃ bl, getBlob st r.blob = some bl
      ∧ bl.entryv.length = ERTS_NUM_CODE_IX
      ∧ bl.exp.addresses.length = ERTS_NUM_CODE_IX := by
  unfold validRef at h
  cases hg : getBlob st r.blob with
  | none =>
    rw [hg] at h
    cases h
  | some bl =>
    rw [hg, Bool.and_eq_true] at h
    exact ⟨bl, rfl, beq_iff_eq.mp h.1, beq_iff_eq.mp h.2⟩

theorem validRef_congr {st st' : State} {r : EntryRef}
    (h : getBlob st' r.blob = getBlob st r.blob) :
    validRef st' r = validRef st r := by
  unfold validRef
  rw [h]

theorem addrAt?_congr {st st' : State} {b : Nat}
    (h : getBlob st' b = getBlob st b) (ix : Nat) :
    addrAt? st' b ix = addrAt? st b ix := by
  unfold addrAt?
  rw [h]

theorem blobMFA?_congr {st st' : State} {b : Nat}
    (h : getBlob st' b = getBlob st b) :
    blobMFA? st' b = blobMFA? st b := by
  unfold blobMFA?
  rw [h]

theorem exp_setSlotIdx (st : State) (b0 j : Nat) (v : Int) (b : Nat) :
    (getBlob (setSlotIdx st b0 j v) b).map (fun bl => bl.exp)
      = (getBlob st b).map (fun bl => bl.exp) := by
  by_cases hb : b = b0
  · subst hb
    rw [getBlob_setSlotIdx_self]
    cases getBlob st b with
    | none => rfl
    | some bl => rfl
  · rw [setSlotIdx, getBlob_updBlob_ne st b0 b _ hb]

theorem exp_index_put_of_entry (st : State) (bi : Bool) (i : Nat)
    (r : EntryRef) (b : Nat) :
    (getBlob (index_put_entry st bi i (Tmpl.entry r)).1 b).map (fun bl => bl.exp)
      = (getBlob st b).map (fun bl => bl.exp) := by
  cases h : hash_get st i (tmplMFA st (Tmpl.entry r)) with
  | some r2 => rw [index_put_entry_found h]
  | none =>
    rw [index_put_entry_miss h]
    dsimp only
    rw [getBlob_pushTable]
    rw [exp_setSlotIdx (export_alloc st bi (Tmpl.entry r)).1
      (export_alloc st bi (Tmpl.entry r)).2.blob
      (export_alloc st bi (Tmpl.entry r)).2.idx _ b]
    rw [export_alloc_entry_state]

theorem addrAt?_congr_exp {st st' : State} {b : Nat}
    (h : (getBlob st' b).map (fun bl => bl.exp)
      = (getBlob st b).map (fun bl => bl.exp)) (ix : Nat) :
    addrAt? st' b ix = addrAt? st b ix := by
  unfold addrAt?
  cases hg' : getBlob st' b with
  | none =>
    rw [hg'] at h
    cases hg : getBlob st b with
    | none => rfl
    | some bl =>
      rw [hg] at h
      exact Option.noConfusion h
  | some bl' =>
    rw [hg'] at h
    cases hg : getBlob st b with
    | none =>
      rw [hg] at h
      exact Option.noConfusion h
    | some bl =>
      rw [hg] at h
      injection h with h2
      have h3 : bl'.exp = bl.exp := h2
      show some (bl'.exp.addresses.getD ix (Addr.code 0))
        = some (bl.exp.addresses.getD ix (Addr.code 0))
      rw [h3]

theorem migrate_entry_getBlob_ne (bi : Bool) (dst src : Nat) (s : State)
    (r : EntryRef) (b : Nat) (hb : b ≠ r.blob) :
    getBlob (migrate_entry bi dst src s r) b = getBlob s b := by
  show getBlob (index_put_entry (setBlobAddr s r.blob dst (addrAt s r.blob src))
      bi dst (Tmpl.entry r)).1 b = getBlob s b
  rw [getBlob_index_put_of_entry_ne _ bi dst r b hb]
  show getBlob (updBlob s r.blob _) b = getBlob s b
  exact getBlob_updBlob_ne s r.blob b _ hb

theorem migrate_entry_blobMFA? (bi : Bool) (dst src : Nat) (s : State)
    (r : EntryRef) (b : Nat) :
    blobMFA? (migrate_entry bi dst src s r) b = blobMFA? s b := by
  show blobMFA? (index_put_entry (setBlobAddr s r.blob dst (addrAt s r.blob src))
      bi dst (Tmpl.entry r)).1 b = blobMFA? s b
  rw [blobMFA?_index_put_of_entry _ bi dst r b]
  exact blobMFA?_setBlobAddr s r.blob dst _ b

theorem migrate_entry_tbl_ne (bi : Bool) (dst src : Nat) (s : State)
    (r : EntryRef) (j : Nat) (hj : j ≠ dst) :
    tbl (migrate_entry bi dst src s r) j = tbl s j := by
  show tbl (index_put_entry (setBlobAddr s r.blob dst (addrAt s r.blob src))
      bi dst (Tmpl.entry r)).1 j = tbl s j
  rw [tbl_index_put_ne _ bi dst _ j hj]
  rfl

theorem migrate_entry_tbl_dst (bi : Bool) (dst src : Nat) (s : State)
    (r : EntryRef) :
    ∃ ext, tbl (migrate_entry bi dst src s r) dst = tbl s dst ++ ext := by
  show ∃ ext,
    tbl (index_put_entry (setBlobAddr s r.blob dst (addrAt s r.blob src))
      bi dst (Tmpl.entry r)).1 dst = tbl s dst ++ ext
  rcases tbl_index_put_self (setBlobAddr s r.blob dst (addrAt s r.blob src))
      bi dst (Tmpl.entry r) with h | h
  · exact ⟨[], by rw [h, List.append_nil]; rfl⟩
  · refine ⟨[(index_put_entry (setBlobAddr s r.blob dst (addrAt s r.blob src))
      bi dst (Tmpl.entry r)).2], ?_⟩
    rw [h]
    rfl

theorem migrate_entry_tables_length (bi : Bool) (dst src : Nat) (s : State)
    (r : EntryRef) :
    (migrate_entry bi dst src s r).tables.length = s.tables.length := by
  show (index_put_entry (setBlobAddr s r.blob dst (addrAt s r.blob src))
      bi dst (Tmpl.entry r)).1.tables.length = s.tables.length
  rw [tables_length_index_put]
  rfl

theorem migrate_entry_uniq (bi : Bool) (dst src : Nat) (s : State)
    (r : EntryRef) (hu : Uniq s) (hr : r ∈ tbl s src) :
    Uniq (migrate_entry bi dst src s r) := by
  show Uniq (index_put_entry (setBlobAddr s r.blob dst (addrAt s r.blob src))
      bi dst (Tmpl.entry r)).1
  refine uniq_index_put_of_entry _ bi dst src r ?_ hr
  exact uniq_of_keys_tables s _ rfl
    (fun b => blobMFA?_setBlobAddr s r.blob dst _ b) hu

theorem migrate_entry_spec (bi : Bool) (dst src : Nat) (s : State)
    (r : EntryRef) (bl : Blob)
    (_hne : dst ≠ src) (hdN : dst < ERTS_NUM_CODE_IX)
    (hdlen : dst < s.tables.length)
    (hb : getBlob s r.blob = some bl)
    (hlen : bl.exp.addresses.length = ERTS_NUM_CODE_IX)
    (hr : r ∈ tbl s src) (hu : Uniq s) :
    (∃ j', ({ blob := r.blob, idx := j' } : EntryRef)
        ∈ tbl (migrate_entry bi dst src s r) dst)
    ∧ addrAt? (migrate_entry bi dst src s r) r.blob dst
        = addrAt? s r.blob src := by
  have hu1 : Uniq (setBlobAddr s r.blob dst (addrAt s r.blob src)) :=
    uniq_of_keys_tables s _ rfl
      (fun b => blobMFA?_setBlobAddr s r.blob dst _ b) hu
  have hr1 : r ∈ tbl (setBlobAddr s r.blob dst (addrAt s r.blob src)) src := hr
  have hb1 : getBlob (setBlobAddr s r.blob dst (addrAt s r.blob src)) r.blob
      = some { bl with exp := { bl.exp with
          addresses := bl.exp.addresses.set dst (addrAt s r.blob src) } } := by
    show getBlob (updBlob s r.blob _) r.blob = _
    rw [getBlob_updBlob_self, hb]
    rfl
  have hk1 : keyOf? (setBlobAddr s r.blob dst (addrAt s r.blob src)) r
      = some bl.exp.mfa := by
    show blobMFA? (setBlobAddr s r.blob dst (addrAt s r.blob src)) r.blob = _
    unfold blobMFA?
    rw [hb1]
    rfl
  have hres : (index_put_entry (setBlobAddr s r.blob dst (addrAt s r.blob src))
      bi dst (Tmpl.entry r)).2.blob = r.blob :=
    index_put_of_entry_result_blob _ bi dst src r bl.exp.mfa hu1 hr1 hk1
  have hdlen1 : dst < (setBlobAddr s r.blob dst
      (addrAt s r.blob src)).tables.length := hdlen
  have hmem := index_put_mem (setBlobAddr s r.blob dst (addrAt s r.blob src))
    bi dst (Tmpl.entry r) hdlen1
  constructor
  · rcases hE : (index_put_entry (setBlobAddr s r.blob dst (addrAt s r.blob src))
        bi dst (Tmpl.entry r)).2 with ⟨Rb, Ri⟩
    rw [hE] at hres hmem
    refine ⟨Ri, ?_⟩
    show ({ blob := r.blob, idx := Ri } : EntryRef)
      ∈ tbl (index_put_entry (setBlobAddr s r.blob dst (addrAt s r.blob src))
        bi dst (Tmpl.entry r)).1 dst
    have hres2 : Rb = r.blob := hres
    exact hres2 ▸ hmem
  · show addrAt? (index_put_entry (setBlobAddr s r.blob dst
        (addrAt s r.blob src)) bi dst (Tmpl.entry r)).1 r.blob dst
      = addrAt? s r.blob src
    rw [addrAt?_congr_exp
      (exp_index_put_of_entry (setBlobAddr s r.blob dst (addrAt s r.blob src))
        bi dst r r.blob) dst]
    unfold addrAt?
    rw [hb1, hb]
    show some ((bl.exp.addresses.set dst (addrAt s r.blob src)).getD dst
        (Addr.code 0)) = some (bl.exp.addresses.getD src (Addr.code 0))
    rw [getD_set_self (by rw [hlen]; exact hdN)]
    show some ((addrAt? s r.blob src).getD (Addr.code 0)) = _
    unfold addrAt?
    rw [hb]
    rfl

theorem fold_migrate_getBlob_frame (bi : Bool) (dst src : Nat) :
    ∀ (L : List EntryRef) (s : State) (b : Nat),
      (∀ r' ∈ L, r'.blob ≠ b) →
      getBlob (L.foldl (migrate_entry bi dst src) s) b = getBlob s b := by
  intro L
  induction L with
  | nil => intro s b _; rfl
  | cons x L ih =>
    intro s b hb
    show getBlob (L.foldl (migrate_entry bi dst src)
      (migrate_entry bi dst src s x)) b = getBlob s b
    rw [ih _ b (fun r' h => hb r' (List.mem_cons_of_mem _ h))]
    exact migrate_entry_getBlob_ne bi dst src s x b
      (Ne.symm (hb x (List.mem_cons_self _ _)))

theorem fold_migrate_blobMFA? (bi : Bool) (dst src : Nat) :
    ∀ (L : List EntryRef) (s : State) (b : Nat),
      blobMFA? (L.foldl (migrate_entry bi dst src) s) b = blobMFA? s b := by
  intro L
  induction L with
  | nil => intro s b; rfl
  | cons x L ih =>
    intro s b
    show blobMFA? (L.foldl (migrate_entry bi dst src)
      (migrate_entry bi dst src s x)) b = blobMFA? s b
    rw [ih _ b]
    exact migrate_entry_blobMFA? bi dst src s x b

theorem fold_migrate_tbl_dst (bi : Bool) (dst src : Nat) :
    ∀ (L : List EntryRef) (s : State),
      ∃ ext, tbl (L.foldl (migrate_entry bi dst src) s) dst
        = tbl s dst ++ ext := by
  intro L
  induction L with
  | nil =>
    intro s
    refine ⟨[], ?_⟩
    rw [List.append_nil]
    rfl
  | cons x L ih =>
    intro s
    rcases migrate_entry_tbl_dst bi dst src s x with ⟨e1, he1⟩
    rcases ih (migrate_entry bi dst src s x) with ⟨e2, he2⟩
    refine ⟨e1 ++ e2, ?_⟩
    show tbl (L.foldl (migrate_entry bi dst src)
      (migrate_entry bi dst src s x)) dst = tbl s dst ++ (e1 ++ e2)
    rw [he2, he1, List.append_assoc]

theorem migrate_fold_spec (bi : Bool) (dst src : Nat)
    (hne : dst ≠ src) (hdN : dst < ERTS_NUM_CODE_IX) :
    ∀ (L : List EntryRef) (s : State),
      dst < s.tables.length →
      (∀ r ∈ L, validRef s r = true) →
      (∀ r ∈ L, r ∈ tbl s src) →
      L.Pairwise (fun r1 r2 => r1.blob ≠ r2.blob) →
      Uniq s →
      (∀ r ∈ L,
        (∃ j', ({ blob := r.blob, idx := j' } : EntryRef)
            ∈ tbl (L.foldl (migrate_entry bi dst src) s) dst)
        ∧ addrAt? (L.foldl (migrate_entry bi dst src) s) r.blob dst
            = addrAt? s r.blob src
        ∧ blobMFA? (L.foldl (migrate_entry bi dst src) s) r.blob
            = blobMFA? s r.blob)
      ∧ Uniq (L.foldl (migrate_entry bi dst src) s) := by
  intro L
  induction L with
  | nil =>
    intro s _ _ _ _ hu
    exact ⟨fun r hr => absurd hr (by simp), hu⟩
  | cons x L ih =>
    intro s hdlen hvalid hsub hpair hu
    have hxmem : x ∈ tbl s src := hsub x (List.mem_cons_self _ _)
    rcases validRef_spec (hvalid x (List.mem_cons_self _ _)) with
      ⟨bl, hbx, _, halen⟩
    have hxspec := migrate_entry_spec bi dst src s x bl hne hdN hdlen hbx
      halen hxmem hu
    have hxblobs : ∀ r' ∈ L, r'.blob ≠ x.blob :=
      fun r' h => ((List.pairwise_cons.mp hpair).1 r' h).symm
    have hdlen1 : dst < (migrate_entry bi dst src s x).tables.length := by
      rw [migrate_entry_tables_length]
      exact hdlen
    have hframe : ∀ r' ∈ L,
        getBlob (migrate_entry bi dst src s x) r'.blob = getBlob s r'.blob :=
      fun r' h =>
        migrate_entry_getBlob_ne bi dst src s x r'.blob (hxblobs r' h)
    have hvalid1 : ∀ r ∈ L, validRef (migrate_entry bi dst src s x) r = true := by
      intro r h
      rw [validRef_congr (hframe r h)]
      exact hvalid r (List.mem_cons_of_mem _ h)
    have hsub1 : ∀ r ∈ L, r ∈ tbl (migrate_entry bi dst src s x) src := by
      intro r h
      rw [migrate_entry_tbl_ne bi dst src s x src (fun he => hne he.symm)]
      exact hsub r (List.mem_cons_of_mem _ h)
    have hpair1 : L.Pairwise (fun r1 r2 => r1.blob ≠ r2.blob) :=
      (List.pairwise_cons.mp hpair).2
    have hu1 : Uniq (migrate_entry bi dst src s x) :=
      migrate_entry_uniq bi dst src s x hu hxmem
    have hIH := ih (migrate_entry bi dst src s x) hdlen1 hvalid1 hsub1
      hpair1 hu1
    refine ⟨?_, hIH.2⟩
    intro r hr
    rcases List.mem_cons.mp hr with hrx | hrL
    · subst hrx
      refine ⟨?_, ?_, ?_⟩
      · rcases hxspec.1 with ⟨j', hj'⟩
        rcases fold_migrate_tbl_dst bi dst src L
          (migrate_entry bi dst src s r) with ⟨ext, hext⟩
        refine ⟨j', ?_⟩
        show ({ blob := r.blob, idx := j' } : EntryRef)
          ∈ tbl (L.foldl (migrate_entry bi dst src)
            (migrate_entry bi dst src s r)) dst
        rw [hext]
        exact List.mem_append_left _ hj'
      · have hfr : getBlob (L.foldl (migrate_entry bi dst src)
            (migrate_entry bi dst src s r)) r.blob
            = getBlob (migrate_entry bi dst src s r) r.blob :=
          fold_migrate_getBlob_frame bi dst src L _ r.blob hxblobs
        show addrAt? (L.foldl (migrate_entry bi dst src)
          (migrate_entry bi dst src s r)) r.blob dst = addrAt? s r.blob src
        rw [addrAt?_congr hfr dst]
        exact hxspec.2
      · show blobMFA? (L.foldl (migrate_entry bi dst src)
          (migrate_entry bi dst src s r)) r.blob = blobMFA? s r.blob
        rw [fold_migrate_blobMFA? bi dst src L _ r.blob]
        exact migrate_entry_blobMFA? bi dst src s r r.blob
    · have hIHr := hIH.1 r hrL
      refine ⟨?_, ?_, ?_⟩
      · exact hIHr.1
      · show addrAt? (L.foldl (migrate_entry bi dst src)
          (migrate_entry bi dst src s x)) r.blob dst = addrAt? s r.blob src
        rw [hIHr.2.1]
        exact addrAt?_congr (hframe r hrL) src
      · show blobMFA? (L.foldl (migrate_entry bi dst src)
          (migrate_entry bi dst src s x)) r.blob = blobMFA? s r.blob
        rw [hIHr.2.2]
        exact blobMFA?_congr (hframe r hrL)

/-- C1: migration fidelity of export_start_staging.  For every entry present
in the active (source) generation's table before migration, the staging
(destination) generation's table afterwards contains an entry in the same
blob — hence for the same identifier, whose record's identifier is
unchanged — and the record's staging-generation dispatch address equals its
active-generation dispatch address at the time of migration (the source
slots are never written by migration, so the pre-migration value is that
address).  Hypotheses: destination and source generations differ, the
destination index is a real generation, the source table's entries are
valid and pairwise in distinct blobs, and blob uniqueness holds. -/
theorem export_start_staging_fidelity (st : State) (bi : Bool) (dst src : Nat)
    (hne : dst ≠ src) (hdN : dst < ERTS_NUM_CODE_IX)
    (hdlen : dst < st.tables.length)
    (hvalid : ∀ r ∈ tbl st src, validRef st r = true)
    (hpair : (tbl st src).Pairwise (fun r1 r2 => r1.blob ≠ r2.blob))
    (hu : Uniq st) :
    ∀ r ∈ tbl st src,
      (∃ j', ({ blob := r.blob, idx := j' } : EntryRef)
          ∈ tbl (export_start_staging st bi dst src) dst)
      ∧ addrAt? (export_start_staging st bi dst src) r.blob dst
          = addrAt? st r.blob src
      ∧ blobMFA? (export_start_staging st bi dst src) r.blob
          = blobMFA? st r.blob := by
  intro r hr
  exact (migrate_fold_spec bi dst src hne hdN (tbl st src) st hdlen hvalid
    (fun r' h => h) hpair hu).1 r hr

theorem export_start_staging_fidelity_witness :
    Uniq sampleState
    ∧ ((∃ j', ({ blob := 0, idx := j' } : EntryRef)
          ∈ tbl (export_start_staging sampleState true 1 0) 1)
       ∧ addrAt? (export_start_staging sampleState true 1 0) 0 1
           = addrAt? sampleState 0 0
       ∧ blobMFA? (export_start_staging sampleState true 1 0) 0
           = blobMFA? sampleState 0) := by
  refine ⟨by decide, ?_⟩
  exact export_start_staging_fidelity sampleState true 1 0 (by decide)
    (by decide) (by decide) (by decide) (by decide) (by decide)
    ⟨0, 0⟩ (by decide)

end ExportTab
